import Mathlib

/-!
# Verification of the release-to-pull-request resolution core

A shallow embedding, in Lean 4, of the PR-discovery logic of the
`gha-release-linker` action: the issue-reference extractor
(`extractPRUrlsFromBody` and its three regular-expression patterns), the
previous-release selection (`getPreviousReleaseTag` and the stricter
target-commitish variant inside `getPullRequestUrlsForRelease`), the bounded
diff and full-history fallback strategies, and the downstream Linear helpers
(`processRelease`, `isIdentifierEnabled`, `addLabelToIssue`).

Texts are embedded as `List Char` (written `Text`); external collaborators
(GitHub and Linear GraphQL endpoints) are abstracted into environment records
whose fields return the data the remote calls would produce.  JavaScript `Set`
accumulation is embedded as insertion-ordered duplicate-free list building.
-/

namespace ReleaseLinker

/-- Texts (JavaScript strings) are embedded as lists of characters. -/
abbrev Text := List Char

/-- JavaScript's `\w` character class: ASCII letters, digits and underscore. -/
def wordChar (c : Char) : Bool :=
  c.isAlpha || c.isDigit || c = '_'

/-- Whether a remainder of the text begins with a word character: the negation
of the `(?!\w)` lookahead used by the bare `#number` pattern. -/
def startsWithWord : Text → Bool
  | [] => false
  | c :: _ => wordChar c

/-! ## The three extraction patterns of `extractPRUrlsFromBody`

The regular expressions of the source are embedded as leftmost-match,
non-overlapping scanners over the character list, resuming after the end of
each match exactly as a JavaScript global `exec` loop advances `lastIndex`. -/

/-- The pattern string `https://github.com/{org}/{repo}/pull/` the source
interpolates, unescaped, into `new RegExp`; it is also the canonical URL
stem the other two branches build their output from. -/
def fullPfx (org repo : Text) : Text :=
  "https://github.com/".toList ++ org ++ "/".toList ++ repo ++ "/pull/".toList

/-- The canonical URL the extractor pushes for a PR number `ds`. -/
def canonicalUrl (org repo ds : Text) : Text :=
  fullPfx org repo ++ ds

/-- One step of the exact-match reading of the full-URL pattern at the
current position: the text starts with the URL stem taken literally, then at
least one digit, the digit run maximal (a greedy d-plus).  The faithful
matcher of the interpolated regex — whose unescaped dot is a wildcard — is
`fullAtW` below; on texts with no near-miss stem occurrence the two
coincide. -/
def fullAt (pfx : Text) (s : Text) : Option (Text × Text) :=
  if pfx.isPrefixOf s then
    let after := s.drop pfx.length
    let ds := after.takeWhile Char.isDigit
    if ds = [] then none
    else some (ds, after.dropWhile Char.isDigit)
  else none

theorem takeWhile_add_dropWhile_length (p : Char → Bool) (l : Text) :
    (l.takeWhile p).length + (l.dropWhile p).length = l.length := by
  have h := congrArg List.length (List.takeWhile_append_dropWhile p l)
  rwa [List.length_append] at h

theorem fullAt_rem_lt {pfx s ds rem : Text} (h : fullAt pfx s = some (ds, rem)) :
    rem.length < s.length := by
  unfold fullAt at h
  split at h
  · dsimp only at h
    split at h
    · exact absurd h (by simp)
    · rename_i hds
      injection h with h1
      injection h1 with h1 h2
      subst h2
      have hlen := takeWhile_add_dropWhile_length Char.isDigit (s.drop pfx.length)
      have hdrop : (s.drop pfx.length).length ≤ s.length := by
        rw [List.length_drop]; omega
      have hpos : 0 < (List.takeWhile Char.isDigit (s.drop pfx.length)).length := by
        cases htk : List.takeWhile Char.isDigit (s.drop pfx.length) with
        | nil => exact absurd htk hds
        | cons a t => simp
      omega
  · exact absurd h (by simp)

/-- The global scan of the full-URL pattern, on explicit fuel (one unit per
position, enough fuel never running out when primed with the text length):
leftmost matches, resuming after the matched digits, pushing the whole match
(stem plus digits). -/
def scanFullFuel (pfx : Text) : Nat → Text → List Text
  | _, [] => []
  | 0, _ :: _ => []
  | n + 1, c :: rest =>
    match fullAt pfx (c :: rest) with
    | some (ds, rem) => (pfx ++ ds) :: scanFullFuel pfx n rem
    | none => scanFullFuel pfx n rest

/-- The global scan of the full-URL pattern over a whole text. -/
def scanFull (pfx : Text) (s : Text) : List Text :=
  scanFullFuel pfx s.length s

theorem scanFullFuel_congr (pfx : Text) :
    ∀ n m s, s.length ≤ n → s.length ≤ m →
      scanFullFuel pfx n s = scanFullFuel pfx m s := by
  intro n
  induction n with
  | zero =>
    intro m s hn _
    cases s with
    | nil => cases m <;> rfl
    | cons c rest => simp at hn
  | succ n ih =>
    intro m s hn hm
    cases s with
    | nil => cases m <;> rfl
    | cons c rest =>
      cases m with
      | zero => simp at hm
      | succ m' =>
        show (match fullAt pfx (c :: rest) with
              | some (ds, rem) => (pfx ++ ds) :: scanFullFuel pfx n rem
              | none => scanFullFuel pfx n rest) =
             (match fullAt pfx (c :: rest) with
              | some (ds, rem) => (pfx ++ ds) :: scanFullFuel pfx m' rem
              | none => scanFullFuel pfx m' rest)
        cases hstep : fullAt pfx (c :: rest) with
        | some r =>
          obtain ⟨ds, rem⟩ := r
          show (pfx ++ ds) :: scanFullFuel pfx n rem =
            (pfx ++ ds) :: scanFullFuel pfx m' rem
          have hlt := fullAt_rem_lt hstep
          simp only [List.length_cons] at hn hm hlt
          congr 1
          exact ih m' rem (by omega) (by omega)
        | none =>
          show scanFullFuel pfx n rest = scanFullFuel pfx m' rest
          simp only [List.length_cons] at hn hm
          exact ih m' rest (by omega) (by omega)

/-- The core of the bare pattern `#(\d+)(?!\w)` at the current position: a
hash, a maximal nonempty digit run, and no word character after it. -/
def bareCore (t : Text) : Option (Text × Text) :=
  match t with
  | c :: u =>
    if c = '#' then
      let ds := u.takeWhile Char.isDigit
      if ds = [] then none
      else if startsWithWord (u.dropWhile Char.isDigit) then none
      else some (ds, u.dropWhile Char.isDigit)
    else none
  | [] => none

/-- One step of `(?:^|\W)#(\d+)(?!\w)` at the current position: the start
anchor alternative is available only at the very start of the text
(`atStart`); otherwise a non-word character is consumed before the hash. -/
def tryBare (atStart : Bool) (s : Text) : Option (Text × Text) :=
  match (if atStart then bareCore s else none) with
  | some r => some r
  | none =>
    match s with
    | c :: t => if wordChar c then none else bareCore t
    | [] => none

theorem bareCore_rem_lt {t ds rem : Text} (h : bareCore t = some (ds, rem)) :
    rem.length < t.length := by
  unfold bareCore at h
  split at h
  · rename_i c u
    split at h
    · dsimp only at h
      split at h
      · exact absurd h (by simp)
      · split at h
        · exact absurd h (by simp)
        · rename_i hds _
          injection h with h1
          injection h1 with h1 h2
          subst h2
          have hlen := takeWhile_add_dropWhile_length Char.isDigit u
          have hpos : 0 < (List.takeWhile Char.isDigit u).length := by
            cases htk : List.takeWhile Char.isDigit u with
            | nil => exact absurd htk hds
            | cons a t => simp
          simp only [List.length_cons]
          omega
    · exact absurd h (by simp)
  · exact absurd h (by simp)

theorem tryBare_rem_lt {a : Bool} {s ds rem : Text}
    (h : tryBare a s = some (ds, rem)) : rem.length < s.length := by
  unfold tryBare at h
  split at h
  · rename_i r heq
    split at heq
    · injection h with h1; subst h1; exact bareCore_rem_lt heq
    · exact absurd heq (by simp)
  · split at h
    · rename_i c t
      split at h
      · exact absurd h (by simp)
      · have := bareCore_rem_lt h
        simp only [List.length_cons]
        omega
    · exact absurd h (by simp)

/-- The global scan of the bare pattern on explicit fuel, emitting the
captured digit groups. -/
def scanBareFuel : Nat → Bool → Text → List Text
  | _, _, [] => []
  | 0, _, _ :: _ => []
  | n + 1, a, c :: rest =>
    match tryBare a (c :: rest) with
    | some (ds, rem) => ds :: scanBareFuel n false rem
    | none => scanBareFuel n false rest

/-- The global scan of the bare pattern over a whole text. -/
def scanBare (a : Bool) (s : Text) : List Text :=
  scanBareFuel s.length a s

theorem scanBareFuel_congr :
    ∀ n m a s, s.length ≤ n → s.length ≤ m →
      scanBareFuel n a s = scanBareFuel m a s := by
  intro n
  induction n with
  | zero =>
    intro m a s hn _
    cases s with
    | nil => cases m <;> rfl
    | cons c rest => simp at hn
  | succ n ih =>
    intro m a s hn hm
    cases s with
    | nil => cases m <;> rfl
    | cons c rest =>
      cases m with
      | zero => simp at hm
      | succ m' =>
        show (match tryBare a (c :: rest) with
              | some (ds, rem) => ds :: scanBareFuel n false rem
              | none => scanBareFuel n false rest) =
             (match tryBare a (c :: rest) with
              | some (ds, rem) => ds :: scanBareFuel m' false rem
              | none => scanBareFuel m' false rest)
        cases hstep : tryBare a (c :: rest) with
        | some r =>
          obtain ⟨ds, rem⟩ := r
          show ds :: scanBareFuel n false rem = ds :: scanBareFuel m' false rem
          have hlt := tryBare_rem_lt hstep
          simp only [List.length_cons] at hn hm hlt
          congr 1
          exact ih m' false rem (by omega) (by omega)
        | none =>
          show scanBareFuel n false rest = scanBareFuel m' false rest
          simp only [List.length_cons] at hn hm
          exact ih m' false rest (by omega) (by omega)

/-- The pattern string `org/repo#` the source interpolates, unescaped, into
the cross-repo-qualified regex; the exact-match reading below matches it
literally, the faithful dot-wildcard matcher being `qualCoreW` further
down. -/
def qualLit (org repo : Text) : Text :=
  org ++ '/' :: repo ++ ['#']

/-- Consume a closing parenthesis when present: the greedy `\)?` tail of the
qualified pattern. -/
def dropParenClose : Text → Text
  | [] => []
  | c :: r => if c = ')' then r else c :: r

/-- The parenthesis-free core of the exact-match reading of the qualified
pattern at the current position: the literal `org/repo#`, a maximal nonempty
digit run, and an optional closing parenthesis. -/
def qualCore (lit : Text) (t : Text) : Option (Text × Text) :=
  if lit.isPrefixOf t then
    let after := t.drop lit.length
    let ds := after.takeWhile Char.isDigit
    if ds = [] then none
    else some (ds, dropParenClose (after.dropWhile Char.isDigit))
  else none

/-- One step of `\(?org/repo#(\d+)\)?` at the current position: the greedy
`\(?` first consumes an opening parenthesis when present, backtracking to the
bare literal when the parenthesized attempt fails. -/
def tryQual (lit : Text) (s : Text) : Option (Text × Text) :=
  match s with
  | c :: t =>
    if c = '(' then
      match qualCore lit t with
      | some r => some r
      | none => qualCore lit s
    else qualCore lit s
  | [] => qualCore lit s

theorem dropParenClose_length_le (t : Text) :
    (dropParenClose t).length ≤ t.length := by
  unfold dropParenClose
  split
  · exact Nat.le_refl _
  · split
    · simp
    · exact Nat.le_refl _

theorem qualCore_rem_lt {lit t ds rem : Text} (h : qualCore lit t = some (ds, rem)) :
    rem.length < t.length := by
  unfold qualCore at h
  split at h
  · dsimp only at h
    split at h
    · exact absurd h (by simp)
    · rename_i hds
      injection h with h1
      injection h1 with h1 h2
      subst h2
      have hlen := takeWhile_add_dropWhile_length Char.isDigit (t.drop lit.length)
      have hdrop : (t.drop lit.length).length ≤ t.length := by
        rw [List.length_drop]; omega
      have hpos : 0 < (List.takeWhile Char.isDigit (t.drop lit.length)).length := by
        cases htk : List.takeWhile Char.isDigit (t.drop lit.length) with
        | nil => exact absurd htk hds
        | cons a u => simp
      have := dropParenClose_length_le (List.dropWhile Char.isDigit (t.drop lit.length))
      omega
  · exact absurd h (by simp)

theorem tryQual_rem_lt {lit s ds rem : Text} (h : tryQual lit s = some (ds, rem)) :
    rem.length < s.length := by
  unfold tryQual at h
  split at h
  · rename_i c t
    split at h
    · split at h
      · rename_i r heq
        injection h with h1
        subst h1
        have := qualCore_rem_lt heq
        simp only [List.length_cons]
        omega
      · exact qualCore_rem_lt h
    · exact qualCore_rem_lt h
  · exact qualCore_rem_lt h

/-- The global scan of the qualified pattern on explicit fuel, emitting
captured digit groups. -/
def scanQualFuel (lit : Text) : Nat → Text → List Text
  | _, [] => []
  | 0, _ :: _ => []
  | n + 1, c :: rest =>
    match tryQual lit (c :: rest) with
    | some (ds, rem) => ds :: scanQualFuel lit n rem
    | none => scanQualFuel lit n rest

/-- The global scan of the qualified pattern over a whole text. -/
def scanQual (lit : Text) (s : Text) : List Text :=
  scanQualFuel lit s.length s

theorem scanQualFuel_congr (lit : Text) :
    ∀ n m s, s.length ≤ n → s.length ≤ m →
      scanQualFuel lit n s = scanQualFuel lit m s := by
  intro n
  induction n with
  | zero =>
    intro m s hn _
    cases s with
    | nil => cases m <;> rfl
    | cons c rest => simp at hn
  | succ n ih =>
    intro m s hn hm
    cases s with
    | nil => cases m <;> rfl
    | cons c rest =>
      cases m with
      | zero => simp at hm
      | succ m' =>
        show (match tryQual lit (c :: rest) with
              | some (ds, rem) => ds :: scanQualFuel lit n rem
              | none => scanQualFuel lit n rest) =
             (match tryQual lit (c :: rest) with
              | some (ds, rem) => ds :: scanQualFuel lit m' rem
              | none => scanQualFuel lit m' rest)
        cases hstep : tryQual lit (c :: rest) with
        | some r =>
          obtain ⟨ds, rem⟩ := r
          show ds :: scanQualFuel lit n rem = ds :: scanQualFuel lit m' rem
          have hlt := tryQual_rem_lt hstep
          simp only [List.length_cons] at hn hm hlt
          congr 1
          exact ih m' rem (by omega) (by omega)
        | none =>
          show scanQualFuel lit n rest = scanQualFuel lit m' rest
          simp only [List.length_cons] at hn hm
          exact ih m' rest (by omega) (by omega)

/-! ### The interpolated regexes, faithfully

The source splices `https://github.com/{org}/{repo}/pull/` and
`{org}/{repo}#` into `new RegExp(...)` without escaping, so the dot of
`github.com` — and a dot anywhere in the configured names — is a regex
wildcard and matches any character.  The matchers below translate such a
pattern string with `'.'` as a wildcard and every other character literal;
the translation is exact whenever org and repo stay inside GitHub's name
alphabet (letters, digits, `-`, `_`, `.`), whose only regex metacharacter
is the dot.  The all-literal scanners above (`fullAt`, `qualCore`) are the
exact-match reading of the same patterns, which the faithful scanners reduce
to on texts free of near-miss wildcard matches. -/

/-- Does one pattern position accept a character: a wildcard accepts any,
a literal only itself. -/
def patCharMatches (p : Option Char) (c : Char) : Bool :=
  match p with
  | some a => c = a
  | none => true

/-- The regex a pattern string denotes when its sole metacharacter is the
dot: `'.'` becomes a wildcard, all else is literal. -/
def patOfRegex (t : Text) : List (Option Char) :=
  t.map fun c => if c = '.' then none else some c

/-- Match a pattern against the head of the text: on success the consumed
characters (as the program's `match[0]` stem) and the rest. -/
def patConsume : List (Option Char) → Text → Option (Text × Text)
  | [], s => some ([], s)
  | _ :: _, [] => none
  | p :: ps, c :: cs =>
    if patCharMatches p c then
      match patConsume ps cs with
      | some (t, r) => some (c :: t, r)
      | none => none
    else none

/-- One step of the interpolated full-URL regex at the current position: the
stem as a dot-wildcard pattern, then a maximal nonempty digit run; on success
the whole match `match[0]` (the consumed stem verbatim plus the digits) and
the rest. -/
def fullAtW (pat : List (Option Char)) (s : Text) : Option (Text × Text) :=
  match patConsume pat s with
  | none => none
  | some (t, after) =>
    let ds := after.takeWhile Char.isDigit
    if ds = [] then none
    else some (t ++ ds, after.dropWhile Char.isDigit)

/-- The global scan of the interpolated full-URL pattern on explicit fuel,
pushing each `match[0]` verbatim. -/
def scanFullWFuel (pat : List (Option Char)) : Nat → Text → List Text
  | _, [] => []
  | 0, _ :: _ => []
  | n + 1, c :: rest =>
    match fullAtW pat (c :: rest) with
    | some (m, rem) => m :: scanFullWFuel pat n rem
    | none => scanFullWFuel pat n rest

/-- The global scan of the interpolated full-URL pattern over a whole text. -/
def scanFullW (pat : List (Option Char)) (s : Text) : List Text :=
  scanFullWFuel pat s.length s

/-- The parenthesis-free core of the interpolated qualified pattern: the
dot-wildcard literal, a maximal nonempty digit run (the capture), an optional
closing parenthesis. -/
def qualCoreW (pat : List (Option Char)) (t : Text) : Option (Text × Text) :=
  match patConsume pat t with
  | none => none
  | some (_, after) =>
    let ds := after.takeWhile Char.isDigit
    if ds = [] then none
    else some (ds, dropParenClose (after.dropWhile Char.isDigit))

/-- One step of the interpolated `\(?org/repo#(\d+)\)?` at the current
position, with the greedy optional opening parenthesis. -/
def tryQualW (pat : List (Option Char)) (s : Text) : Option (Text × Text) :=
  match s with
  | c :: t =>
    if c = '(' then
      match qualCoreW pat t with
      | some r => some r
      | none => qualCoreW pat s
    else qualCoreW pat s
  | [] => qualCoreW pat s

/-- The global scan of the interpolated qualified pattern on explicit fuel,
emitting captured digit groups. -/
def scanQualWFuel (pat : List (Option Char)) : Nat → Text → List Text
  | _, [] => []
  | 0, _ :: _ => []
  | n + 1, c :: rest =>
    match tryQualW pat (c :: rest) with
    | some (ds, rem) => ds :: scanQualWFuel pat n rem
    | none => scanQualWFuel pat n rest

/-- The global scan of the interpolated qualified pattern over a whole
text. -/
def scanQualW (pat : List (Option Char)) (s : Text) : List Text :=
  scanQualWFuel pat s.length s

/-- No near-miss occurrence of a pattern in the text: wherever the pattern
matches, the consumed characters are the pattern's own literal source (every
wildcard position actually holds a dot). -/
def noNearMissPat (pat : List (Option Char)) (lit : Text) (s : Text) : Bool :=
  s.tails.all fun suf =>
    match patConsume pat suf with
    | some (t, _) => decide (t = lit)
    | none => true

/-- `extractPRUrlsFromBody` of the source: the three interpolated patterns
are run over the same text and their matches appended — the full-URL matches
verbatim (`match[0]`, canonical only when the wildcard matched an actual
dot), the bare and qualified captures rendered as canonical URLs. -/
def extractPRUrlsFromBody (org repo body : Text) : List Text :=
  scanFullW (patOfRegex (fullPfx org repo)) body
    ++ (scanBare true body).map (canonicalUrl org repo)
    ++ (scanQualW (patOfRegex (qualLit org repo)) body).map (canonicalUrl org repo)

/-- The exact-match reading of the three-pattern extraction, built from the
all-literal scanners: what `extractPRUrlsFromBody` reduces to on texts free
of near-miss wildcard matches. -/
def extractPRUrlsFromBodyLit (org repo body : Text) : List Text :=
  scanFull (fullPfx org repo) body
    ++ (scanBare true body).map (canonicalUrl org repo)
    ++ (scanQual (qualLit org repo) body).map (canonicalUrl org repo)

/-- The spread of a JavaScript `Set` built from a list, on explicit fuel:
first occurrences, in insertion order. -/
def dedupKeepFirstFuel : Nat → List Text → List Text
  | _, [] => []
  | 0, _ :: _ => []
  | n + 1, x :: xs => x :: dedupKeepFirstFuel n (xs.filter (fun y => y ≠ x))

/-- The spread of a JavaScript `Set` built from a list: first occurrences, in
insertion order. -/
def dedupKeepFirst (l : List Text) : List Text :=
  dedupKeepFirstFuel l.length l

theorem dedupKeepFirstFuel_congr :
    ∀ n m l, l.length ≤ n → l.length ≤ m →
      dedupKeepFirstFuel n l = dedupKeepFirstFuel m l := by
  intro n
  induction n with
  | zero =>
    intro m l hn _
    cases l with
    | nil => cases m <;> rfl
    | cons x xs => simp at hn
  | succ n ih =>
    intro m l hn hm
    cases l with
    | nil => cases m <;> rfl
    | cons x xs =>
      cases m with
      | zero => simp at hm
      | succ m' =>
        show x :: dedupKeepFirstFuel n (xs.filter (fun y => y ≠ x)) =
          x :: dedupKeepFirstFuel m' (xs.filter (fun y => y ≠ x))
        have hf := List.length_filter_le (fun y => y ≠ x) xs
        simp only [List.length_cons] at hn hm
        congr 1
        exact ih m' _ (by omega) (by omega)

/-- The extractor as the release-level code uses it: pattern matches from the
body, deduplicated by the final `[...new Set(prUrls)]`. -/
def extract (org repo body : Text) : List Text :=
  dedupKeepFirst (extractPRUrlsFromBody org repo body)

/-- The deduplicated exact-match reading of the extractor. -/
def extractLit (org repo body : Text) : List Text :=
  dedupKeepFirst (extractPRUrlsFromBodyLit org repo body)

/-! ## Characterizing the scanners

The scanners above mirror the source's global `exec` loops; the lemmas below
show that, for well-behaved org/repo names, the set of matches they find is
exactly the set of positional occurrences of each pattern in the text. -/

/-- Whether a remainder of the text begins with a digit. -/
def startsWithDigit : Text → Bool
  | [] => false
  | c :: _ => c.isDigit

/-- A computable check that a pattern literal has no border: no nonempty
proper prefix of it is also a suffix of it.  A bordered literal could overlap
itself, letting a global regex scan skip an occurrence. -/
def borderFree (p : Text) : Bool :=
  (List.range p.length).all fun k => decide (k = 0) || !(decide (p.take k <:+ p))

theorem borderFree_spec {p m : Text} (hb : borderFree p = true)
    (hpre : m <+: p) (hsuf : m <:+ p) (hne : m ≠ []) (hlt : m.length < p.length) :
    False := by
  have hm : m = p.take m.length := List.prefix_iff_eq_take.mp hpre
  have hk : m.length ∈ List.range p.length := List.mem_range.mpr hlt
  have := (List.all_eq_true.mp hb) _ hk
  simp only [Bool.or_eq_true, decide_eq_true_eq, Bool.not_eq_true',
    decide_eq_false_iff_not] at this
  rcases this with h0 | hns
  · exact hne (by cases m with
      | nil => rfl
      | cons a t => simp at h0)
  · exact hns (hm ▸ hsuf)

theorem prefix_of_append_left {m p z : Text} (h : p <+: m ++ z)
    (hle : m.length ≤ p.length) : m <+: p := by
  have hp : p = (m ++ z).take p.length := List.prefix_iff_eq_take.mp h
  have : p.take m.length = m := by
    rw [hp, List.take_take, Nat.min_eq_left hle, List.take_left]
  exact this ▸ List.take_prefix m.length p

theorem takeWhile_digits_append {ds post : Text}
    (hds : ∀ c ∈ ds, c.isDigit = true) (hpost : startsWithDigit post = false) :
    (ds ++ post).takeWhile Char.isDigit = ds ∧
      (ds ++ post).dropWhile Char.isDigit = post := by
  induction ds with
  | nil =>
    cases post with
    | nil => simp
    | cons c r =>
      simp only [startsWithDigit] at hpost
      simp [List.takeWhile_cons, List.dropWhile_cons, hpost]
  | cons d t ih =>
    have hd : d.isDigit = true := hds d (by simp)
    have ht : ∀ c ∈ t, c.isDigit = true := fun c hc => hds c (by simp [hc])
    have := ih ht
    simp [List.takeWhile_cons, List.dropWhile_cons, hd, this.1, this.2]

/-- The full-URL step succeeds exactly on a decomposition into the literal
stem, a maximal nonempty digit run, and the rest. -/
theorem fullAt_iff {pfx s ds rem : Text} :
    fullAt pfx s = some (ds, rem) ↔
      s = pfx ++ ds ++ rem ∧ ds ≠ [] ∧ (∀ c ∈ ds, c.isDigit = true) ∧
        startsWithDigit rem = false := by
  constructor
  · intro h
    unfold fullAt at h
    split at h
    · rename_i hpfx
      dsimp only at h
      split at h
      · exact absurd h (by simp)
      · rename_i hds
        injection h with h1
        injection h1 with h1 h2
        subst h1 h2
        have hpre : pfx <+: s := List.isPrefixOf_iff_prefix.mp hpfx
        obtain ⟨tl, htl⟩ := hpre
        have hdrop : s.drop pfx.length = tl := by
          rw [← htl, List.drop_left]
        rw [hdrop] at hds ⊢
        refine ⟨?_, hds, ?_, ?_⟩
        · rw [List.append_assoc, ← htl]
          congr 1
          rw [List.takeWhile_append_dropWhile]
        · intro c hc
          exact List.mem_takeWhile_imp hc
        · have := List.head?_dropWhile_not Char.isDigit tl
          unfold startsWithDigit
          cases hh : List.dropWhile Char.isDigit tl with
          | nil => rfl
          | cons a u =>
            rw [hh] at this
            simpa using this
    · exact absurd h (by simp)
  · rintro ⟨hs, hds, hall, hpost⟩
    have hsplit := takeWhile_digits_append hall hpost
    unfold fullAt
    have hpfx : pfx.isPrefixOf s = true := by
      rw [List.isPrefixOf_iff_prefix, hs, List.append_assoc]
      exact List.prefix_append _ _
    rw [if_pos hpfx]
    have hdrop : s.drop pfx.length = ds ++ rem := by
      rw [hs, List.append_assoc, List.drop_left]
    dsimp only
    rw [hdrop, hsplit.1, hsplit.2, if_neg hds]

/-- The bare-pattern core succeeds exactly on a hash followed by a maximal
nonempty digit run with no word character after it. -/
theorem bareCore_iff {t ds rem : Text} :
    bareCore t = some (ds, rem) ↔
      t = '#' :: (ds ++ rem) ∧ ds ≠ [] ∧ (∀ c ∈ ds, c.isDigit = true) ∧
        startsWithDigit rem = false ∧ startsWithWord rem = false := by
  constructor
  · intro h
    unfold bareCore at h
    split at h
    · rename_i c u
      split at h
      · rename_i hc
        subst hc
        dsimp only at h
        split at h
        · exact absurd h (by simp)
        · split at h
          · exact absurd h (by simp)
          · rename_i hds hw
            injection h with h1
            injection h1 with h1 h2
            subst h1 h2
            refine ⟨by rw [List.takeWhile_append_dropWhile], hds, ?_, ?_, by simpa using hw⟩
            · intro c hc
              exact List.mem_takeWhile_imp hc
            · have := List.head?_dropWhile_not Char.isDigit u
              unfold startsWithDigit
              cases hh : List.dropWhile Char.isDigit u with
              | nil => rfl
              | cons a v =>
                rw [hh] at this
                simpa using this
      · exact absurd h (by simp)
    · exact absurd h (by simp)
  · rintro ⟨ht, hds, hall, hpost, hw⟩
    have hsplit := takeWhile_digits_append hall hpost
    subst ht
    have hred : bareCore ('#' :: (ds ++ rem)) =
        (if (ds ++ rem).takeWhile Char.isDigit = [] then none
         else if startsWithWord ((ds ++ rem).dropWhile Char.isDigit) then none
         else some ((ds ++ rem).takeWhile Char.isDigit,
            (ds ++ rem).dropWhile Char.isDigit)) := rfl
    rw [hred, hsplit.1, hsplit.2, if_neg hds, if_neg (by simp [hw])]

/-- The qualified-pattern core succeeds exactly on the literal `org/repo#`, a
maximal nonempty digit run, and an optionally consumed closing parenthesis. -/
theorem qualCore_iff {lit t ds rem : Text} :
    qualCore lit t = some (ds, rem) ↔
      ∃ post, t = lit ++ ds ++ post ∧ ds ≠ [] ∧ (∀ c ∈ ds, c.isDigit = true) ∧
        startsWithDigit post = false ∧ rem = dropParenClose post := by
  constructor
  · intro h
    unfold qualCore at h
    split at h
    · rename_i hpfx
      dsimp only at h
      split at h
      · exact absurd h (by simp)
      · rename_i hds
        injection h with h1
        injection h1 with h1 h2
        subst h1 h2
        have hpre : lit <+: t := List.isPrefixOf_iff_prefix.mp hpfx
        obtain ⟨tl, htl⟩ := hpre
        have hdrop : t.drop lit.length = tl := by
          rw [← htl, List.drop_left]
        rw [hdrop] at hds ⊢
        refine ⟨tl.dropWhile Char.isDigit, ?_, hds, ?_, ?_, rfl⟩
        · rw [List.append_assoc, ← htl]
          congr 1
          rw [List.takeWhile_append_dropWhile]
        · intro c hc
          exact List.mem_takeWhile_imp hc
        · have := List.head?_dropWhile_not Char.isDigit tl
          unfold startsWithDigit
          cases hh : List.dropWhile Char.isDigit tl with
          | nil => rfl
          | cons a u =>
            rw [hh] at this
            simpa using this
    · exact absurd h (by simp)
  · rintro ⟨post, ht, hds, hall, hpost, hrem⟩
    have hsplit := takeWhile_digits_append hall hpost
    subst hrem
    unfold qualCore
    have hpfx : lit.isPrefixOf t = true := by
      rw [List.isPrefixOf_iff_prefix, ht, List.append_assoc]
      exact List.prefix_append _ _
    rw [if_pos hpfx]
    have hdrop : t.drop lit.length = ds ++ post := by
      rw [ht, List.append_assoc, List.drop_left]
    dsimp only
    rw [hdrop, hsplit.1, hsplit.2, if_neg hds]

/-! ### Unfolding lemmas for the scanners -/

theorem scanFull_nil (pfx : Text) : scanFull pfx [] = [] := rfl

theorem scanFull_cons_red (pfx : Text) (c : Char) (rest : Text) :
    scanFull pfx (c :: rest) =
      (match fullAt pfx (c :: rest) with
       | some (ds, rem) => (pfx ++ ds) :: scanFullFuel pfx rest.length rem
       | none => scanFullFuel pfx rest.length rest) := rfl

theorem scanFull_cons_some {pfx : Text} {c : Char} {rest ds rem : Text}
    (h : fullAt pfx (c :: rest) = some (ds, rem)) :
    scanFull pfx (c :: rest) = (pfx ++ ds) :: scanFull pfx rem := by
  rw [scanFull_cons_red, h]
  have hlt := fullAt_rem_lt h
  simp only [List.length_cons] at hlt
  show (pfx ++ ds) :: scanFullFuel pfx rest.length rem = _
  congr 1
  exact scanFullFuel_congr pfx rest.length rem.length rem (by omega) (by omega)

theorem scanFull_cons_none {pfx : Text} {c : Char} {rest : Text}
    (h : fullAt pfx (c :: rest) = none) :
    scanFull pfx (c :: rest) = scanFull pfx rest := by
  rw [scanFull_cons_red, h]
  rfl

theorem scanBare_nil (a : Bool) : scanBare a [] = [] := rfl

theorem scanBare_cons_red (a : Bool) (c : Char) (rest : Text) :
    scanBare a (c :: rest) =
      (match tryBare a (c :: rest) with
       | some (ds, rem) => ds :: scanBareFuel rest.length false rem
       | none => scanBareFuel rest.length false rest) := rfl

theorem scanBare_cons_some {a : Bool} {c : Char} {rest ds rem : Text}
    (h : tryBare a (c :: rest) = some (ds, rem)) :
    scanBare a (c :: rest) = ds :: scanBare false rem := by
  rw [scanBare_cons_red, h]
  have hlt := tryBare_rem_lt h
  simp only [List.length_cons] at hlt
  show ds :: scanBareFuel rest.length false rem = _
  congr 1
  exact scanBareFuel_congr rest.length rem.length false rem (by omega) (by omega)

theorem scanBare_cons_none {a : Bool} {c : Char} {rest : Text}
    (h : tryBare a (c :: rest) = none) :
    scanBare a (c :: rest) = scanBare false rest := by
  rw [scanBare_cons_red, h]
  rfl

theorem scanQual_nil (lit : Text) : scanQual lit [] = [] := rfl

theorem scanQual_cons_red (lit : Text) (c : Char) (rest : Text) :
    scanQual lit (c :: rest) =
      (match tryQual lit (c :: rest) with
       | some (ds, rem) => ds :: scanQualFuel lit rest.length rem
       | none => scanQualFuel lit rest.length rest) := rfl

theorem scanQual_cons_some {lit : Text} {c : Char} {rest ds rem : Text}
    (h : tryQual lit (c :: rest) = some (ds, rem)) :
    scanQual lit (c :: rest) = ds :: scanQual lit rem := by
  rw [scanQual_cons_red, h]
  have hlt := tryQual_rem_lt h
  simp only [List.length_cons] at hlt
  show ds :: scanQualFuel lit rest.length rem = _
  congr 1
  exact scanQualFuel_congr lit rest.length rem.length rem (by omega) (by omega)

theorem scanQual_cons_none {lit : Text} {c : Char} {rest : Text}
    (h : tryQual lit (c :: rest) = none) :
    scanQual lit (c :: rest) = scanQual lit rest := by
  rw [scanQual_cons_red, h]
  rfl

/-! ### The bare-pattern scan finds exactly the positional occurrences -/

theorem wordChar_of_digit {c : Char} (h : c.isDigit = true) : wordChar c = true := by
  unfold wordChar
  simp [h]

theorem tryBare_nil (a : Bool) : tryBare a [] = none := by
  cases a <;> rfl

/-- An occurrence of the bare pattern in `s`: a position (split) at which the
positional step succeeds, the start-of-text alternative being available only
at position zero of the initial text. -/
def BareOcc (a : Bool) (s ds : Text) : Prop :=
  ∃ pre suf rem, s = pre ++ suf ∧ tryBare (a && pre.isEmpty) suf = some (ds, rem)

theorem tryBare_some_shape {a : Bool} {s ds rem : Text}
    (h : tryBare a s = some (ds, rem)) :
    ∃ x, s = x ++ '#' :: (ds ++ rem) ∧
      (x = [] ∧ a = true ∨ ∃ c', x = [c'] ∧ wordChar c' = false) ∧
      ds ≠ [] ∧ (∀ c ∈ ds, c.isDigit = true) ∧
      startsWithDigit rem = false ∧ startsWithWord rem = false := by
  cases s with
  | nil =>
    rw [tryBare_nil] at h
    cases h
  | cons c t =>
    have hcore : ∀ (hcase : bareCore t = some (ds, rem)) (hw : wordChar c = false),
        ∃ x, c :: t = x ++ '#' :: (ds ++ rem) ∧
          (x = [] ∧ a = true ∨ ∃ c', x = [c'] ∧ wordChar c' = false) ∧
          ds ≠ [] ∧ (∀ c ∈ ds, c.isDigit = true) ∧
          startsWithDigit rem = false ∧ startsWithWord rem = false := by
      intro hcase hw
      obtain ⟨ht, hds, hall, hpost, hw'⟩ := bareCore_iff.mp hcase
      exact ⟨[c], by simp [ht], Or.inr ⟨c, rfl, hw⟩, hds, hall, hpost, hw'⟩
    cases a with
    | false =>
      have h' : (if wordChar c then none else bareCore t) = some (ds, rem) := h
      by_cases hw : wordChar c = true
      · rw [if_pos hw] at h'
        cases h'
      · rw [if_neg hw] at h'
        exact hcore h' (by simpa using hw)
    | true =>
      unfold tryBare at h
      rw [if_pos rfl] at h
      cases hbc : bareCore (c :: t) with
      | some r =>
        rw [hbc] at h
        have h' : (some r : Option (Text × Text)) = some (ds, rem) := h
        injection h' with h''
        subst h''
        obtain ⟨ht, hds, hall, hpost, hw'⟩ := bareCore_iff.mp hbc
        exact ⟨[], by simpa using ht, Or.inl ⟨rfl, rfl⟩, hds, hall, hpost, hw'⟩
      | none =>
        rw [hbc] at h
        have h' : (if wordChar c then none else bareCore t) = some (ds, rem) := h
        by_cases hw : wordChar c = true
        · rw [if_pos hw] at h'
          cases h'
        · rw [if_neg hw] at h'
          exact hcore h' (by simpa using hw)

theorem tryBare_none_of_word {c : Char} {x : Text} (h : wordChar c = true) :
    tryBare false (c :: x) = none := by
  unfold tryBare
  simp [h]

theorem bareCore_none_of_head_digit {t : Text} (hne : t ≠ [])
    (h : startsWithDigit t = true) : bareCore t = none := by
  cases t with
  | nil => exact absurd rfl hne
  | cons c u =>
    unfold startsWithDigit at h
    unfold bareCore
    have : c ≠ '#' := by
      intro hc
      subst hc
      simp at h
    simp [this]

theorem tryBare_none_of_digit_head {c : Char} {x : Text} (h : c.isDigit = true) :
    tryBare false (c :: x) = none :=
  tryBare_none_of_word (wordChar_of_digit h)

theorem bare_tail_occ {ds₀ rem₀ pre₁ suf ds rem : Text} {c' : Char}
    (hU : ds₀ ++ rem₀ = pre₁ ++ suf)
    (hall₀ : ∀ c ∈ ds₀, c.isDigit = true)
    (hsuf : suf = c' :: '#' :: (ds ++ rem)) (hwc : wordChar c' = false)
    (hstep : tryBare false suf = some (ds, rem)) :
    BareOcc false rem₀ ds := by
  rcases List.append_eq_append_iff.mp hU with ⟨m, hm1, hm2⟩ | ⟨m, hm1, hm2⟩
  · exact ⟨m, suf, rem, hm2, hstep⟩
  · cases m with
    | nil =>
      simp only [List.nil_append] at hm2
      exact ⟨[], suf, rem, by simp [hm2], hstep⟩
    | cons d m' =>
      exfalso
      have hd : d ∈ ds₀ := by rw [hm1]; simp
      have hdd : d.isDigit = true := hall₀ d hd
      rw [hsuf] at hm2
      injection hm2 with h1 _
      rw [h1] at hwc
      rw [wordChar_of_digit hdd] at hwc
      cases hwc

theorem scanBare_mem (a : Bool) (s ds : Text) :
    ds ∈ scanBare a s ↔ BareOcc a s ds := by
  cases s with
  | nil =>
    rw [scanBare_nil]
    simp only [List.not_mem_nil, false_iff]
    rintro ⟨pre, suf, rem, heq, hstep⟩
    have hsufnil : suf = [] := by
      cases suf with
      | nil => rfl
      | cons p q => exact absurd heq.symm (by simp)
    rw [hsufnil, tryBare_nil] at hstep
    cases hstep
  | cons c rest =>
    cases htry : tryBare a (c :: rest) with
    | none =>
      rw [scanBare_cons_none htry, scanBare_mem false rest ds]
      constructor
      · rintro ⟨pre, suf, rem, heq, hstep⟩
        refine ⟨c :: pre, suf, rem, by rw [List.cons_append, heq], ?_⟩
        simpa using hstep
      · rintro ⟨pre, suf, rem, heq, hstep⟩
        cases pre with
        | nil =>
          simp only [List.nil_append] at heq
          rw [← heq] at hstep
          simp only [List.isEmpty_nil, Bool.and_true] at hstep
          rw [htry] at hstep
          cases hstep
        | cons p pre' =>
          injection heq with h1 h2
          refine ⟨pre', suf, rem, h2, ?_⟩
          simpa using hstep
    | some pr =>
      obtain ⟨ds₀, rem₀⟩ := pr
      rw [scanBare_cons_some htry]
      have hrec := scanBare_mem false rem₀ ds
      simp only [List.mem_cons, hrec]
      obtain ⟨x, hs, hx, hds₀, hall₀, hpost₀, hw₀⟩ := tryBare_some_shape htry
      constructor
      · rintro (h | ⟨pre, suf, rem, heq, hstep⟩)
        · subst h
          exact ⟨[], c :: rest, rem₀, rfl, by simpa using htry⟩
        · refine ⟨x ++ '#' :: (ds₀ ++ pre), suf, rem, ?_, ?_⟩
          · rw [hs, heq]
            simp
          · have hne : (x ++ '#' :: (ds₀ ++ pre)).isEmpty = false := by
              cases x <;> simp
            rw [hne]
            simpa using hstep
      · rintro ⟨pre, suf, rem, heq, hstep⟩
        cases pre with
        | nil =>
          simp only [List.nil_append] at heq
          rw [← heq] at hstep
          simp only [List.isEmpty_nil, Bool.and_true] at hstep
          rw [htry] at hstep
          injection hstep with h1
          injection h1 with h1 h2
          exact Or.inl h1.symm
        | cons p pre₂ =>
          simp only [List.isEmpty_cons, Bool.and_false] at hstep
          obtain ⟨y, hsuf, hy, hds, hall, hpost, hw⟩ := tryBare_some_shape hstep
          rcases hy with ⟨hy0, hfalse⟩ | ⟨c', hy1, hwc⟩
          · cases hfalse
          · subst hy1
            have hcore : ∃ pre₁, ds₀ ++ rem₀ = pre₁ ++ suf := by
              rcases hx with ⟨hx0, _⟩ | ⟨c₀, hx1, _⟩
              · subst hx0
                simp only [List.nil_append] at hs
                rw [hs] at heq
                injection heq with h1 h2
                exact ⟨pre₂, h2⟩
              · subst hx1
                rw [hs] at heq
                injection heq with h1 h2
                cases pre₂ with
                | nil =>
                  exfalso
                  rw [hsuf] at h2
                  injection h2 with h3 h4
                  cases hds₀' : ds₀ with
                  | nil => exact hds₀ hds₀'
                  | cons d dtl =>
                    rw [hds₀'] at h4
                    simp only [List.cons_append] at h4
                    injection h4 with h5 _
                    have hdig : d.isDigit = true := hall₀ d (by rw [hds₀']; simp)
                    rw [h5] at hdig
                    exact absurd hdig (by decide)
                | cons q pre₁ =>
                  injection h2 with h3 h4
                  exact ⟨pre₁, h4⟩
            obtain ⟨pre₁, hU⟩ := hcore
            exact Or.inr (bare_tail_occ hU hall₀ (by simpa using hsuf) hwc
              (by simpa using hstep))
termination_by s.length
decreasing_by
  · simp
  · exact tryBare_rem_lt htry

/-! ### The full-URL scan finds exactly the positional occurrences -/

/-- An occurrence of the full-URL pattern in `s`: a position at which the
positional step succeeds; the match pushed is the stem plus the digit run. -/
def FullOcc (pfx s u : Text) : Prop :=
  ∃ pre suf ds rem, s = pre ++ suf ∧ fullAt pfx suf = some (ds, rem) ∧ u = pfx ++ ds

theorem fullAt_nil (pfx : Text) : fullAt pfx [] = none := by
  unfold fullAt
  split <;> simp

theorem full_tail_occ {pfx ds₀ rem₀ pre suf ds rem u : Text}
    (hb : borderFree pfx = true) (hne : pfx ≠ [])
    (hhd : startsWithDigit pfx = false)
    (hU : pfx ++ (ds₀ ++ rem₀) = pre ++ suf) (hpre : pre ≠ [])
    (hds₀ : ds₀ ≠ []) (hall₀ : ∀ c ∈ ds₀, c.isDigit = true)
    (hstep : fullAt pfx suf = some (ds, rem)) (hu : u = pfx ++ ds) :
    FullOcc pfx rem₀ u := by
  obtain ⟨hsuf, hds, hall, hpost⟩ := fullAt_iff.mp hstep
  rw [List.append_assoc] at hsuf
  obtain ⟨hc, ptl, hpfx⟩ : ∃ hc ptl, pfx = hc :: ptl := by
    cases pfx with
    | nil => exact absurd rfl hne
    | cons a b => exact ⟨a, b, rfl⟩
  have hhc : hc.isDigit = false := by
    rw [hpfx] at hhd
    simpa [startsWithDigit] using hhd
  rcases List.append_eq_append_iff.mp hU with ⟨m, hm1, hm2⟩ | ⟨m, hm1, hm2⟩
  · rcases List.append_eq_append_iff.mp hm2 with ⟨k, hk1, hk2⟩ | ⟨k, hk1, hk2⟩
    · exact ⟨k, suf, ds, rem, hk2, hstep, hu⟩
    · cases k with
      | nil =>
        simp only [List.nil_append] at hk2
        exact ⟨[], suf, ds, rem, by simp [hk2], hstep, hu⟩
      | cons d k' =>
        exfalso
        have hd : d ∈ ds₀ := by rw [hk1]; simp
        have hdd : d.isDigit = true := hall₀ d hd
        rw [hsuf, hpfx] at hk2
        simp only [List.cons_append] at hk2
        injection hk2 with h1 _
        rw [← h1] at hdd
        rw [hdd] at hhc
        cases hhc
  · cases m with
    | nil =>
      exfalso
      simp only [List.append_nil] at hm1
      simp only [List.nil_append] at hm2
      rw [hsuf, hpfx] at hm2
      cases hds₀' : ds₀ with
      | nil => exact hds₀ hds₀'
      | cons d dtl =>
        rw [hds₀'] at hm2
        simp only [List.cons_append] at hm2
        injection hm2 with h1 _
        have hdd : d.isDigit = true := hall₀ d (by rw [hds₀']; simp)
        rw [← h1] at hdd
        rw [hdd] at hhc
        cases hhc
    | cons mc m' =>
      exfalso
      have hmpre : (mc :: m') <+: pfx := by
        apply prefix_of_append_left (z := ds₀ ++ rem₀)
        · rw [← hm2, hsuf]
          exact ⟨ds ++ rem, rfl⟩
        · have := congrArg List.length hm1
          simp only [List.length_append] at this
          have hp : 0 < pre.length := by
            cases pre with
            | nil => exact absurd rfl hpre
            | cons a b => simp
          omega
      have hmsuf : (mc :: m') <:+ pfx := ⟨pre, hm1.symm⟩
      have hmlt : (mc :: m').length < pfx.length := by
        have := congrArg List.length hm1
        simp only [List.length_append] at this
        have hp : 0 < pre.length := by
          cases pre with
          | nil => exact absurd rfl hpre
          | cons a b => simp
        omega
      exact borderFree_spec hb hmpre hmsuf (by simp) hmlt

theorem scanFull_mem (pfx : Text) (hb : borderFree pfx = true) (hne : pfx ≠ [])
    (hhd : startsWithDigit pfx = false) (s u : Text) :
    u ∈ scanFull pfx s ↔ FullOcc pfx s u := by
  cases s with
  | nil =>
    rw [scanFull_nil]
    simp only [List.not_mem_nil, false_iff]
    rintro ⟨pre, suf, ds, rem, heq, hstep, hu⟩
    have hsufnil : suf = [] := by
      cases suf with
      | nil => rfl
      | cons p q => exact absurd heq.symm (by simp)
    rw [hsufnil, fullAt_nil] at hstep
    cases hstep
  | cons c rest =>
    cases htry : fullAt pfx (c :: rest) with
    | none =>
      rw [scanFull_cons_none htry, scanFull_mem pfx hb hne hhd rest u]
      constructor
      · rintro ⟨pre, suf, ds, rem, heq, hstep, hu⟩
        exact ⟨c :: pre, suf, ds, rem, by rw [List.cons_append, heq], hstep, hu⟩
      · rintro ⟨pre, suf, ds, rem, heq, hstep, hu⟩
        cases pre with
        | nil =>
          simp only [List.nil_append] at heq
          rw [← heq, htry] at hstep
          cases hstep
        | cons p pre' =>
          injection heq with h1 h2
          exact ⟨pre', suf, ds, rem, h2, hstep, hu⟩
    | some pr =>
      obtain ⟨ds₀, rem₀⟩ := pr
      rw [scanFull_cons_some htry]
      have hrec := scanFull_mem pfx hb hne hhd rem₀ u
      simp only [List.mem_cons, hrec]
      obtain ⟨hs, hds₀, hall₀, hpost₀⟩ := fullAt_iff.mp htry
      constructor
      · rintro (h | ⟨pre, suf, ds, rem, heq, hstep, hu⟩)
        · exact ⟨[], c :: rest, ds₀, rem₀, rfl, htry, h⟩
        · refine ⟨pfx ++ ds₀ ++ pre, suf, ds, rem, ?_, hstep, hu⟩
          rw [hs, heq]
          simp
      · rintro ⟨pre, suf, ds, rem, heq, hstep, hu⟩
        cases pre with
        | nil =>
          simp only [List.nil_append] at heq
          rw [← heq, htry] at hstep
          injection hstep with h1
          injection h1 with h1 h2
          rw [hu, h1]
          exact Or.inl rfl
        | cons p pre₂ =>
          have hU : pfx ++ (ds₀ ++ rem₀) = (p :: pre₂) ++ suf := by
            rw [← List.append_assoc, ← hs, heq]
          exact Or.inr (full_tail_occ hb hne hhd hU (by simp) hds₀ hall₀ hstep hu)
termination_by s.length
decreasing_by
  · simp
  · exact fullAt_rem_lt htry

/-! ### The qualified-pattern scan finds exactly the positional occurrences -/

/-- An occurrence of the qualified pattern in `s`: a position at which the
positional step (with its optional parentheses) succeeds. -/
def QualOcc (lit s ds : Text) : Prop :=
  ∃ pre suf rem, s = pre ++ suf ∧ tryQual lit suf = some (ds, rem)

theorem qualCore_nil {lit : Text} : qualCore lit [] = none := by
  unfold qualCore
  split <;> simp

theorem tryQual_nil {lit : Text} : tryQual lit [] = none :=
  qualCore_nil

theorem tryQual_cons (lit : Text) (c : Char) (t : Text) :
    tryQual lit (c :: t) =
      if c = '(' then
        (match qualCore lit t with
         | some r => some r
         | none => qualCore lit (c :: t))
      else qualCore lit (c :: t) := rfl

theorem tryQual_some_head {lit : Text} {c : Char} {z ds rem : Text}
    (h : tryQual lit (c :: z) = some (ds, rem)) (hne : lit ≠ []) :
    c = '(' ∨ lit.head? = some c := by
  rw [tryQual_cons] at h
  by_cases hc : c = '('
  · exact Or.inl hc
  · rw [if_neg hc] at h
    right
    obtain ⟨post, ht, hds, hall, hpost, hrem⟩ := qualCore_iff.mp h
    cases lit with
    | nil => exact absurd rfl hne
    | cons hl ltl =>
      simp only [List.cons_append, List.append_assoc] at ht
      injection ht with h1 _
      rw [h1]
      rfl

theorem qualCore_direct {lit ds₀ post₀ : Text}
    (hds₀ : ds₀ ≠ []) (hall₀ : ∀ c ∈ ds₀, c.isDigit = true)
    (hpost₀ : startsWithDigit post₀ = false) :
    qualCore lit (lit ++ ds₀ ++ post₀) = some (ds₀, dropParenClose post₀) :=
  qualCore_iff.mpr ⟨post₀, rfl, hds₀, hall₀, hpost₀, rfl⟩

theorem tryQual_direct {lit ds₀ post₀ : Text} (hop : '(' ∉ lit) (hne : lit ≠ [])
    (hds₀ : ds₀ ≠ []) (hall₀ : ∀ c ∈ ds₀, c.isDigit = true)
    (hpost₀ : startsWithDigit post₀ = false) :
    tryQual lit (lit ++ ds₀ ++ post₀) = some (ds₀, dropParenClose post₀) := by
  cases lit with
  | nil => exact absurd rfl hne
  | cons hl ltl =>
    have hhl : hl ≠ '(' := by
      intro h
      exact hop (by rw [h] at *; simp)
    have hshape : (hl :: ltl) ++ ds₀ ++ post₀ = hl :: (ltl ++ ds₀ ++ post₀) := by
      simp
    rw [hshape, tryQual_cons, if_neg hhl, ← hshape]
    exact qualCore_direct hds₀ hall₀ hpost₀

theorem tryQual_some_shape {lit s ds rem : Text}
    (h : tryQual lit s = some (ds, rem)) :
    ∃ x post, (x = [] ∨ x = ['(']) ∧ s = x ++ (lit ++ ds ++ post) ∧
      ds ≠ [] ∧ (∀ c ∈ ds, c.isDigit = true) ∧ startsWithDigit post = false ∧
      rem = dropParenClose post := by
  cases s with
  | nil =>
    rw [tryQual_nil] at h
    cases h
  | cons c t =>
    rw [tryQual_cons] at h
    by_cases hc : c = '('
    · rw [if_pos hc] at h
      cases hq : qualCore lit t with
      | some r =>
        rw [hq] at h
        have h'' : (some r : Option (Text × Text)) = some (ds, rem) := h
        injection h'' with h3
        subst h3
        obtain ⟨post, ht, hds, hall, hpost, hrem⟩ := qualCore_iff.mp hq
        exact ⟨['('], post, Or.inr rfl, by rw [hc, ht]; simp, hds, hall, hpost, hrem⟩
      | none =>
        rw [hq] at h
        have h'' : qualCore lit (c :: t) = some (ds, rem) := h
        obtain ⟨post, ht, hds, hall, hpost, hrem⟩ := qualCore_iff.mp h''
        exact ⟨[], post, Or.inl rfl, by rw [ht]; simp, hds, hall, hpost, hrem⟩
    · rw [if_neg hc] at h
      obtain ⟨post, ht, hds, hall, hpost, hrem⟩ := qualCore_iff.mp h
      exact ⟨[], post, Or.inl rfl, by rw [ht]; simp, hds, hall, hpost, hrem⟩

theorem dropParenClose_decomp (t : Text) :
    ∃ w, (w = [] ∨ w = [')']) ∧ t = w ++ dropParenClose t := by
  cases t with
  | nil => exact ⟨[], Or.inl rfl, rfl⟩
  | cons c r =>
    by_cases hc : c = ')'
    · refine ⟨[')'], Or.inr rfl, ?_⟩
      simp only [dropParenClose]
      rw [if_pos hc, hc]
      rfl
    · refine ⟨[], Or.inl rfl, ?_⟩
      simp only [dropParenClose]
      rw [if_neg hc]
      rfl

theorem dropParenClose_cons_ne {c : Char} {r : Text} (hc : c ≠ ')') :
    dropParenClose (c :: r) = c :: r := by
  simp only [dropParenClose]
  rw [if_neg hc]

theorem qual_tail_occ {lit ds₀ post₀ pre₁ suf ds rem : Text}
    (hb : borderFree lit = true) (hne : lit ≠ [])
    (hhd : startsWithDigit lit = false) (hop : '(' ∉ lit) (hcp : ')' ∉ lit)
    (hU : lit ++ (ds₀ ++ post₀) = pre₁ ++ suf) (hpre : pre₁ ≠ [])
    (hds₀ : ds₀ ≠ []) (hall₀ : ∀ c ∈ ds₀, c.isDigit = true)
    (hstep : tryQual lit suf = some (ds, rem)) :
    QualOcc lit (dropParenClose post₀) ds := by
  have hsufne : suf ≠ [] := by
    intro hemp
    rw [hemp, tryQual_nil] at hstep
    cases hstep
  obtain ⟨sc, stl, hsufc⟩ : ∃ sc stl, suf = sc :: stl := by
    cases suf with
    | nil => exact absurd rfl hsufne
    | cons a b => exact ⟨a, b, rfl⟩
  have hhead := tryQual_some_head (hsufc ▸ hstep) hne
  have hdigit_head : ∀ d : Char, d.isDigit = true → sc = d → False := by
    intro d hd hscd
    rcases hhead with h1 | h1
    · rw [hscd] at h1
      rw [h1] at hd
      exact absurd hd (by decide)
    · cases lit with
      | nil => exact hne rfl
      | cons hl ltl =>
        injection h1 with h1
        rw [hscd] at h1
        rw [← h1] at hd
        simp only [startsWithDigit] at hhd
        rw [hd] at hhd
        cases hhd
  rcases List.append_eq_append_iff.mp hU with ⟨m, hm1, hm2⟩ | ⟨m, hm1, hm2⟩
  · rcases List.append_eq_append_iff.mp hm2 with ⟨k, hk1, hk2⟩ | ⟨k, hk1, hk2⟩
    · -- suf begins inside post₀ (or right at it)
      cases k with
      | nil =>
        simp only [List.nil_append] at hk2
        cases hp : post₀ with
        | nil =>
          rw [hp] at hk2
          exact absurd hk2.symm hsufne
        | cons pc ptl =>
          by_cases hpc : pc = ')'
          · exfalso
            rw [hp, hpc] at hk2
            rw [← hk2] at hsufc
            injection hsufc with h1 _
            rcases hhead with h2 | h2
            · rw [← h1] at h2
              exact absurd h2 (by decide)
            · rw [← h1] at h2
              exact hcp (List.mem_of_mem_head? h2)
          · refine ⟨[], suf, rem, ?_, hstep⟩
            rw [dropParenClose_cons_ne hpc, ← hp, hk2]
            simp
      | cons kc k' =>
        by_cases hkc : kc = ')'
        · subst hkc
          refine ⟨k', suf, rem, ?_, hstep⟩
          rw [hk2]
          simp [dropParenClose]
        · refine ⟨kc :: k', suf, rem, ?_, hstep⟩
          rw [hk2]
          simp [dropParenClose, hkc]
    · -- suf would begin inside the digit run
      cases k with
      | nil =>
        simp only [List.nil_append] at hk2
        cases hp : post₀ with
        | nil =>
          rw [hp] at hk2
          exact absurd hk2 hsufne
        | cons pc ptl =>
          by_cases hpc : pc = ')'
          · exfalso
            rw [hk2, hp, hpc] at hsufc
            injection hsufc with h1 _
            rcases hhead with h2 | h2
            · rw [← h1] at h2
              exact absurd h2 (by decide)
            · rw [← h1] at h2
              exact hcp (List.mem_of_mem_head? h2)
          · refine ⟨[], suf, rem, ?_, hstep⟩
            rw [dropParenClose_cons_ne hpc, ← hp, ← hk2]
            simp
      | cons d k' =>
        exfalso
        have hd : d ∈ ds₀ := by rw [hk1]; simp
        rw [hk2] at hsufc
        simp only [List.cons_append] at hsufc
        injection hsufc with h1 _
        exact hdigit_head d (hall₀ d hd) h1.symm
  · cases m with
    | nil =>
      exfalso
      simp only [List.nil_append] at hm2
      cases hds₀' : ds₀ with
      | nil => exact hds₀ hds₀'
      | cons d dtl =>
        rw [hds₀'] at hm2
        simp only [List.cons_append] at hm2
        rw [hm2] at hsufc
        injection hsufc with h1 _
        exact hdigit_head d (hall₀ d (by rw [hds₀']; simp)) h1.symm
    | cons mc m' =>
      exfalso
      have hmlt : (mc :: m').length < lit.length := by
        have := congrArg List.length hm1
        simp only [List.length_append] at this
        have hp : 0 < pre₁.length := by
          cases pre₁ with
          | nil => exact absurd rfl hpre
          | cons a b => simp
        omega
      obtain ⟨y, post, hy, hsufshape, hds, hall, hpost, hrem⟩ := tryQual_some_shape hstep
      rcases hy with hy0 | hy1
      · subst hy0
        simp only [List.nil_append] at hsufshape
        have hmpre : (mc :: m') <+: lit := by
          apply prefix_of_append_left (z := ds₀ ++ post₀)
          · rw [← hm2, hsufshape]
            exact ⟨ds ++ post, by simp⟩
          · omega
        exact borderFree_spec hb hmpre ⟨pre₁, hm1.symm⟩ (by simp) hmlt
      · subst hy1
        rw [hsufshape] at hm2
        simp only [List.cons_append] at hm2
        injection hm2 with h1 _
        have : mc ∈ lit := by rw [hm1]; simp
        rw [← h1] at this
        exact hop this

theorem scanQual_mem (lit : Text) (hb : borderFree lit = true) (hne : lit ≠ [])
    (hhd : startsWithDigit lit = false) (hop : '(' ∉ lit) (hcp : ')' ∉ lit)
    (s ds : Text) :
    ds ∈ scanQual lit s ↔ QualOcc lit s ds := by
  cases s with
  | nil =>
    rw [scanQual_nil]
    simp only [List.not_mem_nil, false_iff]
    rintro ⟨pre, suf, rem, heq, hstep⟩
    have hsufnil : suf = [] := by
      cases suf with
      | nil => rfl
      | cons p q => exact absurd heq.symm (by simp)
    rw [hsufnil, tryQual_nil] at hstep
    cases hstep
  | cons c rest =>
    cases htry : tryQual lit (c :: rest) with
    | none =>
      rw [scanQual_cons_none htry, scanQual_mem lit hb hne hhd hop hcp rest ds]
      constructor
      · rintro ⟨pre, suf, rem, heq, hstep⟩
        exact ⟨c :: pre, suf, rem, by rw [List.cons_append, heq], hstep⟩
      · rintro ⟨pre, suf, rem, heq, hstep⟩
        cases pre with
        | nil =>
          simp only [List.nil_append] at heq
          rw [← heq, htry] at hstep
          cases hstep
        | cons p pre' =>
          injection heq with h1 h2
          exact ⟨pre', suf, rem, h2, hstep⟩
    | some pr =>
      obtain ⟨ds₀, rem₀⟩ := pr
      rw [scanQual_cons_some htry]
      have hrec := scanQual_mem lit hb hne hhd hop hcp rem₀ ds
      simp only [List.mem_cons, hrec]
      obtain ⟨x, post₀, hx, hs, hds₀, hall₀, hpost₀, hrem₀⟩ := tryQual_some_shape htry
      constructor
      · rintro (h | ⟨pre, suf, rem, heq, hstep⟩)
        · exact ⟨[], c :: rest, rem₀, rfl, by rw [h]; exact htry⟩
        · obtain ⟨w, _, hpw⟩ := dropParenClose_decomp post₀
          refine ⟨x ++ (lit ++ (ds₀ ++ (w ++ pre))), suf, rem, ?_, hstep⟩
          rw [hs, hpw, ← hrem₀, heq]
          simp [List.append_assoc]
      · rintro ⟨pre, suf, rem, heq, hstep⟩
        cases pre with
        | nil =>
          simp only [List.nil_append] at heq
          rw [← heq, htry] at hstep
          injection hstep with h1
          injection h1 with h1 h2
          exact Or.inl h1.symm
        | cons p pre₂ =>
          rcases hx with hx0 | hx1
          · subst hx0
            simp only [List.nil_append] at hs
            have hU : lit ++ (ds₀ ++ post₀) = (p :: pre₂) ++ suf := by
              rw [← List.append_assoc, ← hs, heq]
            rw [hrem₀]
            exact Or.inr (qual_tail_occ hb hne hhd hop hcp hU (by simp) hds₀ hall₀ hstep)
          · subst hx1
            rw [hs] at heq
            injection heq with h1 h2
            cases pre₂ with
            | nil =>
              have h2' : lit ++ ds₀ ++ post₀ = suf := h2
              rw [← h2', tryQual_direct hop hne hds₀ hall₀ hpost₀] at hstep
              injection hstep with h3
              injection h3 with h3 h4
              exact Or.inl h3.symm
            | cons q pre₁ =>
              have hU : lit ++ (ds₀ ++ post₀) = (q :: pre₁) ++ suf := by
                rw [← List.append_assoc]
                exact h2
              rw [hrem₀]
              exact Or.inr (qual_tail_occ hb hne hhd hop hcp hU (by simp) hds₀ hall₀ hstep)
termination_by s.length
decreasing_by
  · simp
  · exact tryQual_rem_lt htry

/-! ### The specification-level reference sets

The spec (section 4.1) describes three textual forms of a validly-formed PR
reference.  The definitions below are written from the spec's words, one per
form, reading the reference (its digit group) found at a given position of
the text; `specRefs` collects the references of a whole text over all
positions.  The correspondence with the scanners is proved, giving the
refinement of the extractor against the specification. -/

/-- Spec form 1 at a position: the canonical URL stem for the configured
org and repo followed by the PR number (a maximal nonempty digit run). -/
def specFullRefAt (org repo : Text) (t : Text) : Option Text :=
  if (fullPfx org repo).isPrefixOf t then
    let ds := (t.drop (fullPfx org repo).length).takeWhile Char.isDigit
    if ds = [] then none else some ds
  else none

/-- The number of a bare reference read right after its hash sign: a maximal
nonempty digit run not immediately followed by a word character. -/
def specBareNum (u : Text) : Option Text :=
  let ds := u.takeWhile Char.isDigit
  if ds = [] then none
  else if startsWithWord (u.dropWhile Char.isDigit) then none
  else some ds

/-- Spec form 2 at the very start of the text: `#number` with nothing before
it. -/
def specBareHeadRef : Text → Option Text
  | c :: u => if c = '#' then specBareNum u else none
  | [] => none

/-- Spec form 2 at an inner position: `#number` immediately preceded by a
non-word character. -/
def specBareWRefAt : Text → Option Text
  | c :: u => if wordChar c then none else specBareHeadRef u
  | [] => none

/-- The parenthesis-free part of spec form 3 at a position: the literal
`org/repo#` followed by the PR number. -/
def specQualCoreAt (lit : Text) (t : Text) : Option Text :=
  if lit.isPrefixOf t then
    let ds := (t.drop lit.length).takeWhile Char.isDigit
    if ds = [] then none else some ds
  else none

/-- Spec form 3 at a position: `org/repo#number`, optionally parenthesized. -/
def specQualRefAt (lit : Text) : Text → Option Text
  | c :: u =>
    if c = '(' then
      match specQualCoreAt lit u with
      | some ds => some ds
      | none => specQualCoreAt lit (c :: u)
    else specQualCoreAt lit (c :: u)
  | [] => specQualCoreAt lit []

/-- All validly-formed PR references contained in a text, per the spec's
three forms, as the digit groups found at each position. -/
def specRefs (org repo s : Text) : List Text :=
  s.tails.filterMap (specFullRefAt org repo)
    ++ ((match specBareHeadRef s with | some ds => [ds] | none => [])
        ++ s.tails.filterMap specBareWRefAt)
    ++ s.tails.filterMap (specQualRefAt (qualLit org repo))

/-- The set of distinct validly-formed PR references of a text. -/
def specRefSet (org repo s : Text) : Finset Text :=
  (specRefs org repo s).toFinset

theorem specFullRefAt_eq (org repo t : Text) :
    specFullRefAt org repo t = (fullAt (fullPfx org repo) t).map Prod.fst := by
  unfold specFullRefAt fullAt
  split
  · dsimp only
    split
    · rfl
    · rfl
  · rfl

theorem specBareHeadRef_eq (t : Text) :
    specBareHeadRef t = (bareCore t).map Prod.fst := by
  cases t with
  | nil => rfl
  | cons c u =>
    show (if c = '#' then specBareNum u else none) =
      ((if c = '#' then
          (if (u.takeWhile Char.isDigit) = [] then none
           else if startsWithWord (u.dropWhile Char.isDigit) then none
           else some (u.takeWhile Char.isDigit, u.dropWhile Char.isDigit))
        else none) : Option (Text × Text)).map Prod.fst
    by_cases hc : c = '#'
    · rw [if_pos hc, if_pos hc]
      unfold specBareNum
      dsimp only
      split
      · rfl
      · split
        · rfl
        · rfl
    · rw [if_neg hc, if_neg hc]
      rfl

theorem specQualCoreAt_eq (lit t : Text) :
    specQualCoreAt lit t = (qualCore lit t).map Prod.fst := by
  unfold specQualCoreAt qualCore
  split
  · dsimp only
    split
    · rfl
    · rfl
  · rfl

theorem specQualRefAt_eq (lit t : Text) :
    specQualRefAt lit t = (tryQual lit t).map Prod.fst := by
  cases t with
  | nil =>
    show specQualCoreAt lit [] = (qualCore lit []).map Prod.fst
    exact specQualCoreAt_eq lit []
  | cons c u =>
    rw [tryQual_cons]
    show (if c = '(' then
        (match specQualCoreAt lit u with
         | some ds => some ds
         | none => specQualCoreAt lit (c :: u))
      else specQualCoreAt lit (c :: u)) = _
    by_cases hc : c = '('
    · rw [if_pos hc, if_pos hc]
      rw [specQualCoreAt_eq]
      cases hq : qualCore lit u with
      | some r => rfl
      | none =>
        dsimp only
        exact specQualCoreAt_eq lit (c :: u)
    · rw [if_neg hc, if_neg hc]
      exact specQualCoreAt_eq lit (c :: u)

theorem fullOcc_iff_spec (org repo s u : Text) :
    FullOcc (fullPfx org repo) s u ↔
      ∃ ds ∈ s.tails.filterMap (specFullRefAt org repo),
        u = canonicalUrl org repo ds := by
  constructor
  · rintro ⟨pre, suf, ds, rem, heq, hstep, hu⟩
    refine ⟨ds, List.mem_filterMap.mpr ⟨suf, ?_, ?_⟩, hu⟩
    · exact (List.mem_tails _ _).mpr ⟨pre, heq.symm⟩
    · rw [specFullRefAt_eq, hstep]
      rfl
  · rintro ⟨ds, hmem, hu⟩
    obtain ⟨suf, hsuf, hat⟩ := List.mem_filterMap.mp hmem
    rw [specFullRefAt_eq] at hat
    cases hstep : fullAt (fullPfx org repo) suf with
    | none =>
      rw [hstep] at hat
      cases hat
    | some r =>
      obtain ⟨ds', rem'⟩ := r
      rw [hstep] at hat
      have hds : ds' = ds := by simpa using hat
      subst hds
      obtain ⟨pre, hpre⟩ := (List.mem_tails _ _).mp hsuf
      exact ⟨pre, suf, ds', rem', hpre.symm, hstep, hu⟩

theorem qualOcc_iff_spec (lit s ds : Text) :
    QualOcc lit s ds ↔ ∃ suf ∈ s.tails, specQualRefAt lit suf = some ds := by
  constructor
  · rintro ⟨pre, suf, rem, heq, hstep⟩
    refine ⟨suf, (List.mem_tails _ _).mpr ⟨pre, heq.symm⟩, ?_⟩
    rw [specQualRefAt_eq, hstep]
    rfl
  · rintro ⟨suf, hsuf, hat⟩
    rw [specQualRefAt_eq] at hat
    cases hstep : tryQual lit suf with
    | none =>
      rw [hstep] at hat
      cases hat
    | some r =>
      obtain ⟨ds', rem'⟩ := r
      rw [hstep] at hat
      have hds : ds' = ds := by simpa using hat
      subst hds
      obtain ⟨pre, hpre⟩ := (List.mem_tails _ _).mp hsuf
      exact ⟨pre, suf, rem', hpre.symm, hstep⟩

theorem bareCore_cons_none {c : Char} {u : Text} {r : Text × Text}
    (h : bareCore u = some r) : bareCore (c :: u) = none := by
  obtain ⟨ds0, rem0⟩ := r
  obtain ⟨hu, hds, hall, hpost, hw⟩ := bareCore_iff.mp h
  have hred : bareCore (c :: u) =
      (if c = '#' then
        (if (u.takeWhile Char.isDigit) = [] then none
         else if startsWithWord (u.dropWhile Char.isDigit) then none
         else some (u.takeWhile Char.isDigit, u.dropWhile Char.isDigit))
      else none) := rfl
  rw [hred]
  by_cases hc : c = '#'
  · rw [if_pos hc, hu]
    have hnd : ('#' : Char).isDigit = false := by decide
    simp [List.takeWhile_cons, hnd]
  · rw [if_neg hc]

theorem tryBare_true_of_bareCore {s : Text} {r : Text × Text}
    (h : bareCore s = some r) : tryBare true s = some r := by
  unfold tryBare
  rw [if_pos rfl, h]

theorem tryBare_of_w {a : Bool} {c : Char} {u : Text} {r : Text × Text}
    (hw : wordChar c = false) (h : bareCore u = some r) :
    tryBare a (c :: u) = some r := by
  cases a with
  | false =>
    show (if wordChar c then none else bareCore u) = some r
    rw [hw]
    simpa using h
  | true =>
    unfold tryBare
    rw [if_pos rfl, bareCore_cons_none h]
    show (if wordChar c then none else bareCore u) = some r
    rw [hw]
    simpa using h

theorem bareOcc_iff_spec (s ds : Text) :
    BareOcc true s ds ↔
      specBareHeadRef s = some ds ∨ ∃ suf ∈ s.tails, specBareWRefAt suf = some ds := by
  constructor
  · rintro ⟨pre, suf, rem, heq, hstep⟩
    obtain ⟨x, hsuf, hx, hds, hall, hpost, hw⟩ := tryBare_some_shape hstep
    rcases hx with ⟨hx0, _⟩ | ⟨c', hx1, hwc⟩
    · subst hx0
      simp only [List.nil_append] at hsuf
      left
      have hpre : pre = [] := by
        cases pre with
        | nil => rfl
        | cons p q =>
          exfalso
          simp only [List.isEmpty_cons, Bool.and_false] at hstep
          obtain ⟨y, hsuf2, hy, hds2, hall2, hpost2, hw2⟩ := tryBare_some_shape hstep
          rcases hy with ⟨_, hfalse⟩ | ⟨c', hy1, hwc⟩
          · cases hfalse
          · subst hy1
            rw [hsuf] at hsuf2
            injection hsuf2 with h1 h2
            have h2' : ds ++ rem = '#' :: (ds ++ rem) := h2
            have hlen := congrArg List.length h2'
            simp only [List.length_append, List.length_cons] at hlen
            omega
      subst hpre
      rw [specBareHeadRef_eq]
      have hbc : bareCore suf = some (ds, rem) := by
        rw [hsuf]
        exact bareCore_iff.mpr ⟨rfl, hds, hall, hpost, hw⟩
      simp only [List.nil_append] at heq
      rw [heq, hbc]
      rfl
    · subst hx1
      right
      refine ⟨suf, (List.mem_tails _ _).mpr ⟨pre, heq.symm⟩, ?_⟩
      rw [hsuf]
      show (if wordChar c' then none else specBareHeadRef ('#' :: (ds ++ rem))) = some ds
      rw [hwc]
      simp only [Bool.false_eq_true, if_false]
      rw [specBareHeadRef_eq]
      rw [show bareCore ('#' :: (ds ++ rem)) = some (ds, rem) from
        bareCore_iff.mpr ⟨rfl, hds, hall, hpost, hw⟩]
      rfl
  · rintro (h | ⟨suf, hsuf, hat⟩)
    · rw [specBareHeadRef_eq] at h
      cases hbc : bareCore s with
      | none =>
        rw [hbc] at h
        cases h
      | some r =>
        obtain ⟨ds', rem'⟩ := r
        rw [hbc] at h
        have hds : ds' = ds := by simpa using h
        subst hds
        exact ⟨[], s, rem', rfl, tryBare_true_of_bareCore hbc⟩
    · cases hsufc : suf with
      | nil =>
        rw [hsufc] at hat
        cases hat
      | cons c u =>
        rw [hsufc] at hat
        have hat' : (if wordChar c then none else specBareHeadRef u) = some ds := hat
        by_cases hw : wordChar c = true
        · rw [if_pos hw] at hat'
          cases hat'
        · rw [if_neg hw] at hat'
          rw [specBareHeadRef_eq] at hat'
          cases hbc : bareCore u with
          | none =>
            rw [hbc] at hat'
            cases hat'
          | some r =>
            obtain ⟨ds', rem'⟩ := r
            rw [hbc] at hat'
            have hds : ds' = ds := by simpa using hat'
            subst hds
            obtain ⟨pre, hpre⟩ := (List.mem_tails _ _).mp hsuf
            refine ⟨pre, suf, rem', hpre.symm, ?_⟩
            rw [hsufc]
            exact tryBare_of_w (by simpa using hw) hbc

/-! ### Deduplication, well-behaved configuration, and the extractor theorem -/

theorem dedupKeepFirst_nil : dedupKeepFirst [] = [] := rfl

theorem dedupKeepFirst_cons (x : Text) (xs : List Text) :
    dedupKeepFirst (x :: xs) = x :: dedupKeepFirst (xs.filter (fun y => y ≠ x)) := by
  show x :: dedupKeepFirstFuel xs.length (xs.filter (fun y => y ≠ x)) = _
  congr 1
  exact dedupKeepFirstFuel_congr xs.length _ _ (List.length_filter_le _ _) (Nat.le_refl _)

theorem mem_dedupKeepFirst (u : Text) (l : List Text) :
    u ∈ dedupKeepFirst l ↔ u ∈ l := by
  cases l with
  | nil => rw [dedupKeepFirst_nil]
  | cons x xs =>
    rw [dedupKeepFirst_cons]
    simp only [List.mem_cons, mem_dedupKeepFirst u (xs.filter (fun y => y ≠ x))]
    constructor
    · rintro (h | h)
      · exact Or.inl h
      · exact Or.inr (List.mem_of_mem_filter h)
    · rintro (h | h)
      · exact Or.inl h
      · by_cases hx : u = x
        · exact Or.inl hx
        · exact Or.inr (List.mem_filter.mpr ⟨h, by simpa using hx⟩)
termination_by l.length
decreasing_by
  simp only [List.length_cons]
  exact Nat.lt_succ_of_le (List.length_filter_le _ _)

theorem dedupKeepFirst_nodup (l : List Text) : (dedupKeepFirst l).Nodup := by
  cases l with
  | nil =>
    rw [dedupKeepFirst_nil]
    exact List.nodup_nil
  | cons x xs =>
    rw [dedupKeepFirst_cons]
    refine List.nodup_cons.mpr ⟨?_, dedupKeepFirst_nodup (xs.filter (fun y => y ≠ x))⟩
    intro hmem
    have h1 := (mem_dedupKeepFirst _ _).mp hmem
    have h2 := List.mem_filter.mp h1
    simp at h2
termination_by l.length
decreasing_by
  simp only [List.length_cons]
  exact Nat.lt_succ_of_le (List.length_filter_le _ _)

theorem fullPfx_cons (org repo : Text) :
    fullPfx org repo =
      'h' :: ("ttps://github.com/".toList ++ org
        ++ "/".toList ++ repo ++ "/pull/".toList) := rfl

theorem fullPfx_ne_nil (org repo : Text) : fullPfx org repo ≠ [] := by
  rw [fullPfx_cons]
  simp

theorem startsWithDigit_fullPfx (org repo : Text) :
    startsWithDigit (fullPfx org repo) = false := by
  rw [fullPfx_cons]
  rfl

theorem qualLit_ne_nil (org repo : Text) : qualLit org repo ≠ [] := by
  unfold qualLit
  intro h
  have := congrArg List.length h
  simp at this

/-- The configured org and repo behave as plain literals inside the three
regexes: the two spliced literals are border-free, the qualified literal does
not start with a digit, and it contains no parenthesis.  Ordinary GitHub
names (letters, digits, hyphens, dots, a leading letter) satisfy all of
this. -/
def GoodParams (org repo : Text) : Prop :=
  borderFree (fullPfx org repo) = true ∧
  borderFree (qualLit org repo) = true ∧
  startsWithDigit (qualLit org repo) = false ∧
  '(' ∉ qualLit org repo ∧ ')' ∉ qualLit org repo

instance goodParamsDecidable (org repo : Text) : Decidable (GoodParams org repo) := by
  unfold GoodParams
  exact inferInstance

theorem mem_headRefList {s ds : Text} :
    (ds ∈ (match specBareHeadRef s with | some d => [d] | none => [])) ↔
      specBareHeadRef s = some ds := by
  cases h : specBareHeadRef s with
  | some d => simp [eq_comm]
  | none => simp

theorem mem_specRefs {org repo s ds : Text} :
    ds ∈ specRefs org repo s ↔
      ds ∈ s.tails.filterMap (specFullRefAt org repo) ∨
      ((specBareHeadRef s = some ds ∨ ds ∈ s.tails.filterMap specBareWRefAt) ∨
       ds ∈ s.tails.filterMap (specQualRefAt (qualLit org repo))) := by
  unfold specRefs
  simp only [List.mem_append, mem_headRefList]
  tauto

theorem mem_extractLit_iff (org repo s : Text) (h : GoodParams org repo) (u : Text) :
    u ∈ extractLit org repo s ↔
      ∃ ds ∈ specRefs org repo s, u = canonicalUrl org repo ds := by
  obtain ⟨hbf, hbq, hdq, hop, hcp⟩ := h
  rw [extractLit, mem_dedupKeepFirst]
  unfold extractPRUrlsFromBodyLit
  simp only [List.mem_append, List.mem_map]
  constructor
  · rintro ((hf | ⟨ds, hds, hu⟩) | ⟨ds, hds, hu⟩)
    · obtain ⟨ds, hds, hu⟩ := (fullOcc_iff_spec org repo s u).mp
        ((scanFull_mem (fullPfx org repo) hbf (fullPfx_ne_nil org repo)
          (startsWithDigit_fullPfx org repo) s u).mp hf)
      exact ⟨ds, mem_specRefs.mpr (Or.inl hds), hu⟩
    · have hocc := (bareOcc_iff_spec s ds).mp ((scanBare_mem true s ds).mp hds)
      refine ⟨ds, mem_specRefs.mpr (Or.inr (Or.inl ?_)), hu.symm⟩
      rcases hocc with hh | ⟨suf, hsuf, hw⟩
      · exact Or.inl hh
      · exact Or.inr (List.mem_filterMap.mpr ⟨suf, hsuf, hw⟩)
    · have hocc := (qualOcc_iff_spec (qualLit org repo) s ds).mp
        ((scanQual_mem (qualLit org repo) hbq (qualLit_ne_nil org repo) hdq hop hcp s ds).mp hds)
      refine ⟨ds, mem_specRefs.mpr (Or.inr (Or.inr ?_)), hu.symm⟩
      obtain ⟨suf, hsuf, hq⟩ := hocc
      exact List.mem_filterMap.mpr ⟨suf, hsuf, hq⟩
  · rintro ⟨ds, hds, hu⟩
    rcases mem_specRefs.mp hds with hA | hBC | hD
    · left
      left
      exact (scanFull_mem (fullPfx org repo) hbf (fullPfx_ne_nil org repo)
        (startsWithDigit_fullPfx org repo) s u).mpr
        ((fullOcc_iff_spec org repo s u).mpr ⟨ds, hA, hu⟩)
    · left
      right
      refine ⟨ds, ?_, hu.symm⟩
      refine (scanBare_mem true s ds).mpr ((bareOcc_iff_spec s ds).mpr ?_)
      rcases hBC with hh | hw
      · exact Or.inl hh
      · obtain ⟨suf, hsuf, hq⟩ := List.mem_filterMap.mp hw
        exact Or.inr ⟨suf, hsuf, hq⟩
    · right
      refine ⟨ds, ?_, hu.symm⟩
      refine (scanQual_mem (qualLit org repo) hbq (qualLit_ne_nil org repo) hdq hop hcp s ds).mpr ?_
      refine (qualOcc_iff_spec (qualLit org repo) s ds).mpr ?_
      obtain ⟨suf, hsuf, hq⟩ := List.mem_filterMap.mp hD
      exact ⟨suf, hsuf, hq⟩

theorem canonicalUrl_injective (org repo : Text) :
    Function.Injective (canonicalUrl org repo) := by
  intro a b hab
  exact List.append_cancel_left hab

/-- The exact-match reading of the extractor returns exactly the canonical
URLs of the distinct validly-formed references of the text. -/
theorem extractLit_exact (org repo s : Text) (h : GoodParams org repo) :
    (extractLit org repo s).Nodup ∧
    (extractLit org repo s).toFinset =
      (specRefSet org repo s).image (canonicalUrl org repo) ∧
    (extractLit org repo s).length = (specRefSet org repo s).card := by
  have hnd : (extractLit org repo s).Nodup :=
    dedupKeepFirst_nodup (extractPRUrlsFromBodyLit org repo s)
  have hmem := mem_extractLit_iff org repo s h
  have himg : (extractLit org repo s).toFinset =
      (specRefSet org repo s).image (canonicalUrl org repo) := by
    ext u
    simp only [List.mem_toFinset, Finset.mem_image, specRefSet, hmem]
    constructor
    · rintro ⟨ds, hds, hu⟩
      exact ⟨ds, hds, hu.symm⟩
    · rintro ⟨ds, hds, hu⟩
      exact ⟨ds, hds, hu.symm⟩
  refine ⟨hnd, himg, ?_⟩
  rw [← List.toFinset_card_of_nodup hnd, himg,
    Finset.card_image_of_injective _ (canonicalUrl_injective org repo)]

/-! ### Reducing the faithful scanners to the exact-match reading

On a text with no near-miss occurrence of an interpolated pattern, the
dot-wildcard scanners compute exactly what the all-literal scanners do. -/

theorem patConsume_some :
    ∀ (pat : List (Option Char)) (s t r : Text),
      patConsume pat s = some (t, r) → s = t ++ r := by
  intro pat
  induction pat with
  | nil =>
    intro s t r h
    injection h with h
    injection h with h1 h2
    subst h1
    subst h2
    rfl
  | cons p ps ih =>
    intro s t r h
    cases s with
    | nil => cases h
    | cons c cs =>
      by_cases hm : patCharMatches p c = true
      · have h' : (match patConsume ps cs with
            | some (t, r) => some (c :: t, r)
            | none => none) = some (t, r) := by
          simpa [patConsume, hm] using h
        cases hrec : patConsume ps cs with
        | none => rw [hrec] at h'; cases h'
        | some q =>
          obtain ⟨t2, r2⟩ := q
          rw [hrec] at h'
          injection h' with h'
          injection h' with h1 h2
          subst h1
          subst h2
          rw [ih cs t2 r2 hrec]
          rfl
      · rw [show patConsume (p :: ps) (c :: cs) = none by
            simp [patConsume, hm]] at h
        cases h

theorem patConsume_of_litPfx :
    ∀ (p s : Text), p <+: s →
      patConsume (patOfRegex p) s = some (p, s.drop p.length) := by
  intro p
  induction p with
  | nil =>
    intro s _
    simp [patOfRegex, patConsume]
  | cons a p' ih =>
    intro s h
    obtain ⟨w, hw⟩ := h
    subst hw
    rw [List.drop_left]
    have hih : patConsume (patOfRegex p') (p' ++ w) = some (p', w) := by
      have := ih (p' ++ w) ⟨w, rfl⟩
      rwa [List.drop_left] at this
    show patConsume ((if a = '.' then none else some a) :: patOfRegex p')
      (a :: (p' ++ w)) = some (a :: p', w)
    by_cases ha : a = '.'
    · rw [if_pos ha]
      simp [patConsume, patCharMatches, hih]
    · rw [if_neg ha]
      simp [patConsume, patCharMatches, hih]

theorem fullAtW_eq (pfx u : Text)
    (h : ∀ t r, patConsume (patOfRegex pfx) u = some (t, r) → t = pfx) :
    fullAtW (patOfRegex pfx) u
      = (fullAt pfx u).map fun p => (pfx ++ p.1, p.2) := by
  cases hc : patConsume (patOfRegex pfx) u with
  | none =>
    have hb : pfx.isPrefixOf u = false := by
      cases hbc : pfx.isPrefixOf u
      · rfl
      · rw [patConsume_of_litPfx pfx u (List.isPrefixOf_iff_prefix.mp hbc)] at hc
        cases hc
    unfold fullAtW fullAt
    rw [hc, hb]
    rfl
  | some q =>
    obtain ⟨t, after⟩ := q
    have ht := h t after hc
    subst ht
    have hu : u = t ++ after := patConsume_some _ _ _ _ hc
    have hb : t.isPrefixOf u = true :=
      List.isPrefixOf_iff_prefix.mpr ⟨after, hu.symm⟩
    have hafter : u.drop t.length = after := by
      rw [hu]
      exact List.drop_left _ _
    unfold fullAtW fullAt
    rw [hc, hb]
    show (if after.takeWhile Char.isDigit = [] then none
        else some (t ++ after.takeWhile Char.isDigit, after.dropWhile Char.isDigit))
      = Option.map _ (if (u.drop t.length).takeWhile Char.isDigit = [] then none
        else some ((u.drop t.length).takeWhile Char.isDigit,
          (u.drop t.length).dropWhile Char.isDigit))
    rw [hafter]
    by_cases hds : after.takeWhile Char.isDigit = []
    · rw [if_pos hds, if_pos hds]
      rfl
    · rw [if_neg hds, if_neg hds]
      rfl

theorem fullAt_suffix {pfx s ds rem : Text} (h : fullAt pfx s = some (ds, rem)) :
    rem <:+ s := by
  unfold fullAt at h
  split at h
  · dsimp only at h
    split at h
    · cases h
    · injection h with h1
      injection h1 with h1 h2
      subst h2
      exact (List.dropWhile_suffix _).trans (List.drop_suffix _ _)
  · cases h

theorem scanFullWFuel_eq (pfx : Text) :
    ∀ (n : Nat) (s : Text),
      (∀ u, u <:+ s → ∀ t r, patConsume (patOfRegex pfx) u = some (t, r) → t = pfx) →
      scanFullWFuel (patOfRegex pfx) n s = scanFullFuel pfx n s := by
  intro n
  induction n with
  | zero =>
    intro s _
    cases s <;> rfl
  | succ n ih =>
    intro s h
    cases s with
    | nil => rfl
    | cons c rest =>
      have hstep := fullAtW_eq pfx (c :: rest)
        (h (c :: rest) (List.suffix_refl _))
      show (match fullAtW (patOfRegex pfx) (c :: rest) with
            | some (m, rem) => m :: scanFullWFuel (patOfRegex pfx) n rem
            | none => scanFullWFuel (patOfRegex pfx) n rest)
          = (match fullAt pfx (c :: rest) with
            | some (ds, rem) => (pfx ++ ds) :: scanFullFuel pfx n rem
            | none => scanFullFuel pfx n rest)
      cases hf : fullAt pfx (c :: rest) with
      | some q =>
        obtain ⟨ds, rem⟩ := q
        rw [hf] at hstep
        simp only [Option.map_some'] at hstep
        rw [hstep]
        show (pfx ++ ds) :: scanFullWFuel (patOfRegex pfx) n rem
          = (pfx ++ ds) :: scanFullFuel pfx n rem
        congr 1
        have hsuf : rem <:+ c :: rest := fullAt_suffix hf
        exact ih rem (fun u hu => h u (hu.trans hsuf))
      | none =>
        rw [hf] at hstep
        simp only [Option.map_none'] at hstep
        rw [hstep]
        show scanFullWFuel (patOfRegex pfx) n rest = scanFullFuel pfx n rest
        exact ih rest (fun u hu => h u (hu.trans (List.suffix_cons c rest)))

theorem dropParenClose_suffix (t : Text) : dropParenClose t <:+ t := by
  unfold dropParenClose
  split
  · exact List.suffix_refl _
  · split
    · exact List.suffix_cons _ _
    · exact List.suffix_refl _

theorem qualCore_suffix {lit t ds rem : Text}
    (h : qualCore lit t = some (ds, rem)) : rem <:+ t := by
  unfold qualCore at h
  split at h
  · dsimp only at h
    split at h
    · cases h
    · injection h with h1
      injection h1 with h1 h2
      subst h2
      exact (dropParenClose_suffix _).trans
        ((List.dropWhile_suffix _).trans (List.drop_suffix _ _))
  · cases h

theorem tryQual_suffix {lit s ds rem : Text}
    (h : tryQual lit s = some (ds, rem)) : rem <:+ s := by
  unfold tryQual at h
  split at h
  · rename_i c t
    split at h
    · split at h
      · rename_i q heq
        injection h with h1
        subst h1
        exact (qualCore_suffix heq).trans (List.suffix_cons c t)
      · exact qualCore_suffix h
    · exact qualCore_suffix h
  · exact qualCore_suffix h

theorem qualCoreW_eq (lit u : Text)
    (h : ∀ t r, patConsume (patOfRegex lit) u = some (t, r) → t = lit) :
    qualCoreW (patOfRegex lit) u = qualCore lit u := by
  cases hc : patConsume (patOfRegex lit) u with
  | none =>
    have hb : lit.isPrefixOf u = false := by
      cases hbc : lit.isPrefixOf u
      · rfl
      · rw [patConsume_of_litPfx lit u (List.isPrefixOf_iff_prefix.mp hbc)] at hc
        cases hc
    unfold qualCoreW qualCore
    rw [hc, hb]
    rfl
  | some q =>
    obtain ⟨t, after⟩ := q
    have ht := h t after hc
    subst ht
    have hu : u = t ++ after := patConsume_some _ _ _ _ hc
    have hb : t.isPrefixOf u = true :=
      List.isPrefixOf_iff_prefix.mpr ⟨after, hu.symm⟩
    have hafter : u.drop t.length = after := by
      rw [hu]
      exact List.drop_left _ _
    unfold qualCoreW qualCore
    rw [hc, hb]
    show (if after.takeWhile Char.isDigit = [] then none
        else some (after.takeWhile Char.isDigit,
          dropParenClose (after.dropWhile Char.isDigit)))
      = (if (u.drop t.length).takeWhile Char.isDigit = [] then none
        else some ((u.drop t.length).takeWhile Char.isDigit,
          dropParenClose ((u.drop t.length).dropWhile Char.isDigit)))
    rw [hafter]

theorem tryQualW_eq (lit s : Text)
    (h : ∀ u, u <:+ s → ∀ t r, patConsume (patOfRegex lit) u = some (t, r) → t = lit) :
    tryQualW (patOfRegex lit) s = tryQual lit s := by
  cases s with
  | nil => exact qualCoreW_eq lit [] (h [] (List.suffix_refl _))
  | cons c t =>
    have hcore : qualCoreW (patOfRegex lit) (c :: t) = qualCore lit (c :: t) :=
      qualCoreW_eq lit (c :: t) (h (c :: t) (List.suffix_refl _))
    have htail : qualCoreW (patOfRegex lit) t = qualCore lit t :=
      qualCoreW_eq lit t (h t (List.suffix_cons c t))
    show (if c = '(' then
        match qualCoreW (patOfRegex lit) t with
        | some r => some r
        | none => qualCoreW (patOfRegex lit) (c :: t)
      else qualCoreW (patOfRegex lit) (c :: t))
      = (if c = '(' then
        match qualCore lit t with
        | some r => some r
        | none => qualCore lit (c :: t)
      else qualCore lit (c :: t))
    rw [hcore, htail]

theorem scanQualWFuel_eq (lit : Text) :
    ∀ (n : Nat) (s : Text),
      (∀ u, u <:+ s → ∀ t r, patConsume (patOfRegex lit) u = some (t, r) → t = lit) →
      scanQualWFuel (patOfRegex lit) n s = scanQualFuel lit n s := by
  intro n
  induction n with
  | zero =>
    intro s _
    cases s <;> rfl
  | succ n ih =>
    intro s h
    cases s with
    | nil => rfl
    | cons c rest =>
      have hstep := tryQualW_eq lit (c :: rest)
        (fun u hu => h u hu)
      show (match tryQualW (patOfRegex lit) (c :: rest) with
            | some (ds, rem) => ds :: scanQualWFuel (patOfRegex lit) n rem
            | none => scanQualWFuel (patOfRegex lit) n rest)
          = (match tryQual lit (c :: rest) with
            | some (ds, rem) => ds :: scanQualFuel lit n rem
            | none => scanQualFuel lit n rest)
      cases hf : tryQual lit (c :: rest) with
      | some q =>
        obtain ⟨ds, rem⟩ := q
        rw [hf] at hstep
        rw [hstep]
        show ds :: scanQualWFuel (patOfRegex lit) n rem
          = ds :: scanQualFuel lit n rem
        congr 1
        have hsuf : rem <:+ c :: rest := tryQual_suffix hf
        exact ih rem (fun u hu => h u (hu.trans hsuf))
      | none =>
        rw [hf] at hstep
        rw [hstep]
        show scanQualWFuel (patOfRegex lit) n rest = scanQualFuel lit n rest
        exact ih rest (fun u hu => h u (hu.trans (List.suffix_cons c rest)))

theorem noNearMissPat_spec {pat : List (Option Char)} {lit s : Text}
    (h : noNearMissPat pat lit s = true) :
    ∀ u, u <:+ s → ∀ t r, patConsume pat u = some (t, r) → t = lit := by
  intro u hu t r hc
  have hall := List.all_eq_true.mp h u ((List.mem_tails u s).mpr hu)
  rw [hc] at hall
  exact of_decide_eq_true hall

theorem extract_eq_extractLit (org repo s : Text)
    (hf : noNearMissPat (patOfRegex (fullPfx org repo)) (fullPfx org repo) s = true)
    (hq : noNearMissPat (patOfRegex (qualLit org repo)) (qualLit org repo) s = true) :
    extract org repo s = extractLit org repo s := by
  unfold extract extractLit extractPRUrlsFromBody extractPRUrlsFromBodyLit
  rw [show scanFullW (patOfRegex (fullPfx org repo)) s
        = scanFull (fullPfx org repo) s from
      scanFullWFuel_eq (fullPfx org repo) s.length s (noNearMissPat_spec hf),
    show scanQualW (patOfRegex (qualLit org repo)) s
        = scanQual (qualLit org repo) s from
      scanQualWFuel_eq (qualLit org repo) s.length s (noNearMissPat_spec hq)]

/-- C5, counterexample to the claim as stated: the unescaped dot of
`github.com` in the interpolated full-URL regex is a wildcard, so on a text
holding the near-miss `https://githubXcom/acme/widgets/pull/7` — which
contains no validly-formed PR reference at all — extraction returns that
non-canonical string verbatim: one URL where the claim demands exactly zero
canonical ones. -/
theorem near_miss_wildcard_counterexample :
    specRefs "acme".toList "widgets".toList
      "https://githubXcom/acme/widgets/pull/7".toList = [] ∧
    extract "acme".toList "widgets".toList
      "https://githubXcom/acme/widgets/pull/7".toList
      = ["https://githubXcom/acme/widgets/pull/7".toList] ∧
    ∀ ds ∈ ["7".toList],
      "https://githubXcom/acme/widgets/pull/7".toList ≠
        canonicalUrl "acme".toList "widgets".toList ds := by
  refine ⟨by decide, by decide, by decide⟩

/-- C5, amended: on texts free of near-miss wildcard matches of the two
interpolated patterns (every stem occurrence carries an actual dot), and for
org/repo behaving as plain literals, extraction returns exactly the
canonical URLs of the distinct validly-formed PR references, whatever mix of
the three forms produced them, with no duplicates. -/
theorem extract_distinct_refs_without_near_miss (org repo s : Text)
    (h : GoodParams org repo)
    (hf : noNearMissPat (patOfRegex (fullPfx org repo)) (fullPfx org repo) s = true)
    (hq : noNearMissPat (patOfRegex (qualLit org repo)) (qualLit org repo) s = true) :
    (extract org repo s).Nodup ∧
    (extract org repo s).toFinset =
      (specRefSet org repo s).image (canonicalUrl org repo) ∧
    (extract org repo s).length = (specRefSet org repo s).card := by
  rw [extract_eq_extractLit org repo s hf hq]
  exact extractLit_exact org repo s h

/-- Witness for the amended extractor theorem: the spec's own example text
`see #123 and (acme/widgets#123)` under the configuration acme/widgets. -/
theorem extract_distinct_refs_without_near_miss_witness :
    (extract "acme".toList "widgets".toList
        "see #123 and (acme/widgets#123)".toList).Nodup ∧
    (extract "acme".toList "widgets".toList
        "see #123 and (acme/widgets#123)".toList).toFinset =
      (specRefSet "acme".toList "widgets".toList
        "see #123 and (acme/widgets#123)".toList).image
        (canonicalUrl "acme".toList "widgets".toList) ∧
    (extract "acme".toList "widgets".toList
        "see #123 and (acme/widgets#123)".toList).length =
      (specRefSet "acme".toList "widgets".toList
        "see #123 and (acme/widgets#123)".toList).card :=
  extract_distinct_refs_without_near_miss "acme".toList "widgets".toList
    "see #123 and (acme/widgets#123)".toList (by decide) (by decide) (by decide)

/-- C6: extraction on `issue#123abc` — a bare `#number` embedded inside a
longer token — returns the empty set; in general, every match of the bare
pattern arises at an occurrence that is not immediately preceded (start of
text or a non-word character) and not immediately followed by a word
character. -/
theorem embedded_bare_reference_no_match :
    extract "acme".toList "widgets".toList "issue#123abc".toList = [] ∧
    ∀ (s ds : Text), ds ∈ scanBare true s →
      ∃ u, (s = '#' :: u ∨ ∃ pre c, s = pre ++ c :: '#' :: u ∧ wordChar c = false) ∧
        ds = u.takeWhile Char.isDigit ∧ ds ≠ [] ∧
        startsWithWord (u.dropWhile Char.isDigit) = false := by
  constructor
  · decide
  · intro s ds hmem
    obtain ⟨pre, suf, rem, heq, hstep⟩ := (scanBare_mem true s ds).mp hmem
    obtain ⟨x, hsuf, hx, hds, hall, hpost, hw⟩ := tryBare_some_shape hstep
    rcases hx with ⟨hx0, hflag⟩ | ⟨c', hx1, hwc⟩
    · subst hx0
      simp only [List.nil_append] at hsuf
      have hpre : pre = [] := by
        cases pre with
        | nil => rfl
        | cons p q => simp at hflag
      subst hpre
      simp only [List.nil_append] at heq
      refine ⟨ds ++ rem, Or.inl (by rw [heq, hsuf]), ?_, hds, ?_⟩
      · exact (takeWhile_digits_append hall hpost).1.symm
      · rw [(takeWhile_digits_append hall hpost).2]
        exact hw
    · subst hx1
      refine ⟨ds ++ rem, Or.inr ⟨pre, c', by rw [heq, hsuf]; rfl, hwc⟩, ?_, hds, ?_⟩
      · exact (takeWhile_digits_append hall hpost).1.symm
      · rw [(takeWhile_digits_append hall hpost).2]
        exact hw

/-! ## The release data model and the GitHub collaborator environment

Timestamps: the source compares `created_at` ISO-8601 strings with the
JavaScript `<` operator; lexicographic order on such strings is chronological
order, so creation timestamps are embedded as naturals. -/

/-- A release as `getReleaseByTag` / `listReleases` return it. -/
structure ReleaseData where
  tag_name : String
  created_at : Nat
  target_commitish : String
  body : Option Text
deriving DecidableEq

/-- A failure of a GitHub call (`getReleaseByTag` throws on a missing tag). -/
inductive GhError
  | notFound
  | apiError
deriving DecidableEq

/-- `pageInfo` of a history page of the full-history GraphQL query. -/
structure PageInfo where
  hasNextPage : Option Bool
  endCursor : Option String
deriving DecidableEq

/-- One page of the full-history GraphQL query: each commit node carries the
URLs of its associated pull requests (missing levels of the optional GraphQL
response chain are `none`). -/
structure HistoryPage where
  pageInfo : Option PageInfo
  nodes : Option (List (Option (List (Option String))))
deriving DecidableEq

/-- The GitHub collaborator, abstracted: each field returns what the
corresponding remote call would produce during the run. -/
structure GithubEnv where
  getReleaseByTag : String → Except GhError ReleaseData
  releases : List ReleaseData
  compareCommits : String → String → List String
  commitPRs : String → Option (List (Option String))
  historyPages : List (Option HistoryPage)
  generateNotes : String → Text

/-- The `if (pr?.url)` guard: a missing or empty URL is skipped. -/
def urlOk : Option String → Option String
  | some u => if u = "" then none else some u
  | none => none

/-- `Set.prototype.add` on an insertion-ordered duplicate-free list. -/
def setAdd (l : List String) (x : String) : List String :=
  if x ∈ l then l else l ++ [x]

/-- Adding the URLs of one `associatedPullRequests.nodes` list to the set. -/
def addPRNodes (acc : List String) (nodes : List (Option String)) : List String :=
  nodes.foldl (fun acc pr =>
    match urlOk pr with
    | some u => setAdd acc u
    | none => acc) acc

/-- The URLs a commit node of any of the GraphQL queries contributes. -/
def commitNodeUrls (cn : Option (List (Option String))) : List String :=
  (cn.getD []).filterMap urlOk

/-- The per-commit loop of the bounded-diff strategy: for each commit of the
range, query its associated pull requests and accumulate the URLs. -/
def extractPrUrlsFromCommits (env : GithubEnv) (commits : List String) : List String :=
  commits.foldl (fun acc sha => addPRNodes acc ((env.commitPRs sha).getD [])) []

/-- Insertion into a list sorted by descending creation timestamp.  Models
one step of `Array.prototype.sort` with the source's comparator
`(a, b) => (a.created_at > b.created_at ? -1 : 1)`, a stable descending sort
on the creation timestamp. -/
def insertByCreatedAtDesc (r : ReleaseData) : List ReleaseData → List ReleaseData
  | [] => [r]
  | x :: xs =>
    if x.created_at < r.created_at then r :: x :: xs
    else x :: insertByCreatedAtDesc r xs

/-- The source's descending sort of the filtered release list. -/
def sortByCreatedAtDesc (l : List ReleaseData) : List ReleaseData :=
  l.foldr insertByCreatedAtDesc []

/-- The previous-release selection of the diff-based
`getPullRequestUrlsForRelease`: filter to strictly earlier releases with a
different tag and the same target commitish, sort by descending creation
timestamp, take the first.  `isComparable` is the filter's predicate. -/
def isComparable (createdAt : Nat) (versionName targetCommitish : String)
    (r : ReleaseData) : Bool :=
  decide (r.created_at < createdAt) && decide (r.tag_name ≠ versionName) &&
    decide (r.target_commitish = targetCommitish)

def findPreviousComparable (releases : List ReleaseData) (createdAt : Nat)
    (versionName targetCommitish : String) : Option ReleaseData :=
  (sortByCreatedAtDesc
    (releases.filter (isComparable createdAt versionName targetCommitish))).head?

/-- The filter of the standalone `getPreviousReleaseTag`: strictly earlier
and differently tagged, no target-commitish requirement. -/
def isPrior (createdAt : Nat) (versionName : String) (r : ReleaseData) : Bool :=
  decide (r.created_at < createdAt) && decide (r.tag_name ≠ versionName)

/-- The laxer previous-release selection of the standalone
`getPreviousReleaseTag`: no target-commitish requirement. -/
def getPreviousReleaseTag (releases : List ReleaseData) (createdAt : Nat)
    (versionName : String) : Option String :=
  ((sortByCreatedAtDesc (releases.filter (isPrior createdAt versionName))).head?).map
    ReleaseData.tag_name

/-- The page size of the full-history pagination. -/
def pageSize : Nat := 100

/-- `history.pageInfo?.hasNextPage`, false when any level is missing. -/
def pageHasNext (h : HistoryPage) : Bool :=
  match h.pageInfo with
  | some pi => pi.hasNextPage.getD false
  | none => false

/-- Accumulating one history page's associated-PR URLs into the set. -/
def pagePRs (acc : List String) (h : HistoryPage) : List String :=
  (h.nodes.getD []).foldl (fun acc cn => addPRNodes acc (cn.getD [])) acc

/-- `fetchFullHistoryPRs`: walk the cursor chain of history pages,
accumulating each page's associated-PR URLs, stopping when the response has
no history or reports no further pages. -/
def fetchFullHistoryPRs : List (Option HistoryPage) → List String → List String
  | [], acc => acc
  | none :: _, acc => acc
  | some h :: rest, acc =>
    let acc2 := pagePRs acc h
    if pageHasNext h then fetchFullHistoryPRs rest acc2 else acc2

/-- The diff-based `getPullRequestUrlsForRelease`: resolve the current
release (a failure propagates), find the previous comparable release, and
either compute the bounded diff or fall back to the full history. -/
def getPullRequestUrlsForReleaseDiff (env : GithubEnv) (versionName : String) :
    Except GhError (List String) :=
  match env.getReleaseByTag versionName with
  | .error e => .error e
  | .ok currentRelease =>
    match findPreviousComparable env.releases currentRelease.created_at
        versionName currentRelease.target_commitish with
    | none => .ok (fetchFullHistoryPRs env.historyPages [])
    | some previous =>
      .ok (extractPrUrlsFromCommits env
        (env.compareCommits previous.tag_name versionName))

/-- The body-text `getPullRequestUrlsForRelease` variant: extract references
from the release body (or generated notes when the body is missing, empty,
or yields nothing), deduplicate; any error — including a missing release
tag — is caught and an empty array returned as an ordinary result. -/
def getPullRequestUrlsForReleaseBody (env : GithubEnv) (org repo : Text)
    (versionName : String) : List Text :=
  match env.getReleaseByTag versionName with
  | .error _ => []
  | .ok rel =>
    let releaseBody :=
      match rel.body with
      | some b => if b = [] then env.generateNotes versionName else b
      | none => env.generateNotes versionName
    let prUrls := extractPRUrlsFromBody org repo releaseBody
    let prUrls :=
      if prUrls.length ≤ 0 then
        prUrls ++ extractPRUrlsFromBody org repo (env.generateNotes versionName)
      else prUrls
    dedupKeepFirst prUrls

/-! ## The previous-release selection (C1) -/

theorem mem_insertByCreatedAtDesc (r x : ReleaseData) (l : List ReleaseData) :
    x ∈ insertByCreatedAtDesc r l ↔ x = r ∨ x ∈ l := by
  induction l with
  | nil => simp [insertByCreatedAtDesc]
  | cons a t ih =>
    by_cases h : a.created_at < r.created_at
    · simp only [insertByCreatedAtDesc, if_pos h, List.mem_cons]
    · simp only [insertByCreatedAtDesc, if_neg h, List.mem_cons, ih]
      tauto

theorem insertByCreatedAtDesc_ne_nil (r : ReleaseData) (l : List ReleaseData) :
    insertByCreatedAtDesc r l ≠ [] := by
  cases l with
  | nil => simp [insertByCreatedAtDesc]
  | cons a t =>
    by_cases h : a.created_at < r.created_at <;> simp [insertByCreatedAtDesc, h]

/-- The head of a release list bounds every member's creation timestamp. -/
def HeadMax (l : List ReleaseData) : Prop :=
  ∀ y, l.head? = some y → ∀ x ∈ l, x.created_at ≤ y.created_at

theorem headMax_insertByCreatedAtDesc (r : ReleaseData) (l : List ReleaseData)
    (h : HeadMax l) : HeadMax (insertByCreatedAtDesc r l) := by
  cases l with
  | nil =>
    intro y hy x hx
    simp only [insertByCreatedAtDesc, List.head?_cons, Option.some.injEq] at hy
    simp only [insertByCreatedAtDesc, List.mem_singleton] at hx
    subst hy; subst hx; exact le_refl _
  | cons a t =>
    by_cases hlt : a.created_at < r.created_at
    · intro y hy x hx
      simp only [insertByCreatedAtDesc, if_pos hlt] at hy hx
      simp only [List.head?_cons, Option.some.injEq] at hy
      subst hy
      rcases List.mem_cons.mp hx with hx | hx
      · subst hx; exact le_refl _
      · exact le_trans (h a rfl x hx) (le_of_lt hlt)
    · intro y hy x hx
      simp only [insertByCreatedAtDesc, if_neg hlt] at hy hx
      simp only [List.head?_cons, Option.some.injEq] at hy
      subst hy
      rcases List.mem_cons.mp hx with hx | hx
      · subst hx; exact le_refl _
      · rcases (mem_insertByCreatedAtDesc r x t).mp hx with hx | hx
        · subst hx; exact le_of_not_lt hlt
        · exact h a rfl x (List.mem_cons_of_mem _ hx)

theorem mem_sortByCreatedAtDesc (l : List ReleaseData) (x : ReleaseData) :
    x ∈ sortByCreatedAtDesc l ↔ x ∈ l := by
  induction l with
  | nil => simp [sortByCreatedAtDesc]
  | cons a t ih =>
    show x ∈ insertByCreatedAtDesc a (sortByCreatedAtDesc t) ↔ _
    rw [mem_insertByCreatedAtDesc, ih]
    simp

theorem sortByCreatedAtDesc_eq_nil (l : List ReleaseData) :
    sortByCreatedAtDesc l = [] ↔ l = [] := by
  cases l with
  | nil => simp [sortByCreatedAtDesc]
  | cons a t =>
    constructor
    · intro h
      exact absurd h (insertByCreatedAtDesc_ne_nil a (sortByCreatedAtDesc t))
    · intro h; cases h

theorem headMax_sortByCreatedAtDesc (l : List ReleaseData) :
    HeadMax (sortByCreatedAtDesc l) := by
  induction l with
  | nil => intro y hy; cases hy
  | cons a t ih => exact headMax_insertByCreatedAtDesc a _ ih

theorem head?_some_mem {α : Type} (l : List α) (a : α) (h : l.head? = some a) :
    a ∈ l := by
  cases l with
  | nil => cases h
  | cons x t =>
    injection h with h
    subst h
    exact List.mem_cons_self x t

/-- C1: `findPreviousComparable` — the previous-release selection of the
diff-based `getPullRequestUrlsForRelease` — returns `none` exactly when no
release is strictly earlier than the current one, differently tagged and on
the same target commitish; and any release it returns is such a candidate
whose creation timestamp bounds every candidate's.  The laxer standalone
`getPreviousReleaseTag` behaves the same without the commitish condition. -/
theorem findPreviousComparable_selects_latest (releases : List ReleaseData)
    (createdAt : Nat) (versionName targetCommitish : String) :
    (findPreviousComparable releases createdAt versionName targetCommitish = none ↔
      ∀ r ∈ releases, isComparable createdAt versionName targetCommitish r = false) ∧
    (∀ p, findPreviousComparable releases createdAt versionName targetCommitish = some p →
      p ∈ releases ∧ isComparable createdAt versionName targetCommitish p = true ∧
      ∀ r ∈ releases, isComparable createdAt versionName targetCommitish r = true →
        r.created_at ≤ p.created_at) ∧
    (getPreviousReleaseTag releases createdAt versionName = none ↔
      ∀ r ∈ releases, isPrior createdAt versionName r = false) ∧
    (∀ t, getPreviousReleaseTag releases createdAt versionName = some t →
      ∃ p ∈ releases, p.tag_name = t ∧ isPrior createdAt versionName p = true ∧
        ∀ r ∈ releases, isPrior createdAt versionName r = true →
          r.created_at ≤ p.created_at) := by
  refine ⟨?_, ?_, ?_, ?_⟩
  · unfold findPreviousComparable
    rw [List.head?_eq_none_iff, sortByCreatedAtDesc_eq_nil, List.filter_eq_nil_iff]
    constructor
    · intro h r hr
      exact Bool.eq_false_iff.mpr (h r hr)
    · intro h r hr
      exact Bool.eq_false_iff.mp (h r hr)
  · intro p hp
    have hp' : (sortByCreatedAtDesc
        (releases.filter (isComparable createdAt versionName targetCommitish))).head?
        = some p := hp
    have hmem := head?_some_mem _ _ hp'
    rw [mem_sortByCreatedAtDesc] at hmem
    have hmem' := List.mem_filter.mp hmem
    refine ⟨hmem'.1, hmem'.2, ?_⟩
    intro r hr hcond
    have hrs : r ∈ sortByCreatedAtDesc
        (releases.filter (isComparable createdAt versionName targetCommitish)) :=
      (mem_sortByCreatedAtDesc _ _).mpr (List.mem_filter.mpr ⟨hr, hcond⟩)
    exact headMax_sortByCreatedAtDesc _ p hp' r hrs
  · unfold getPreviousReleaseTag
    rw [Option.map_eq_none', List.head?_eq_none_iff, sortByCreatedAtDesc_eq_nil,
      List.filter_eq_nil_iff]
    constructor
    · intro h r hr
      exact Bool.eq_false_iff.mpr (h r hr)
    · intro h r hr
      exact Bool.eq_false_iff.mp (h r hr)
  · intro t ht
    unfold getPreviousReleaseTag at ht
    rcases Option.map_eq_some'.mp ht with ⟨p, hp, htag⟩
    have hmem := head?_some_mem _ _ hp
    rw [mem_sortByCreatedAtDesc] at hmem
    have hmem' := List.mem_filter.mp hmem
    refine ⟨p, hmem'.1, htag, hmem'.2, ?_⟩
    intro r hr hcond
    have hrs : r ∈ sortByCreatedAtDesc (releases.filter (isPrior createdAt versionName)) :=
      (mem_sortByCreatedAtDesc _ _).mpr (List.mem_filter.mpr ⟨hr, hcond⟩)
    exact headMax_sortByCreatedAtDesc _ p hp r hrs

/-! ## Accumulation into the PR-URL set (C2, C3, C7) -/

theorem setAdd_toFinset (l : List String) (x : String) :
    (setAdd l x).toFinset = insert x l.toFinset := by
  unfold setAdd
  by_cases h : x ∈ l
  · rw [if_pos h]
    ext a
    simp only [List.mem_toFinset, Finset.mem_insert]
    constructor
    · intro ha; exact Or.inr ha
    · rintro (rfl | ha)
      · exact h
      · exact ha
  · rw [if_neg h]
    ext a
    simp only [List.mem_toFinset, List.mem_append, List.mem_singleton, Finset.mem_insert]
    tauto

theorem setAdd_nodup (l : List String) (x : String) (h : l.Nodup) :
    (setAdd l x).Nodup := by
  unfold setAdd
  by_cases hm : x ∈ l
  · rw [if_pos hm]; exact h
  · rw [if_neg hm]
    refine List.Nodup.append h (List.nodup_singleton x) ?_
    intro a ha hax
    rw [List.mem_singleton] at hax
    exact hm (hax ▸ ha)

theorem addPRNodes_toFinset (nodes : List (Option String)) (acc : List String) :
    (addPRNodes acc nodes).toFinset = acc.toFinset ∪ (nodes.filterMap urlOk).toFinset := by
  induction nodes generalizing acc with
  | nil => simp [addPRNodes]
  | cons pr rest ih =>
    have hstep : addPRNodes acc (pr :: rest)
        = addPRNodes (match urlOk pr with
            | some u => setAdd acc u
            | none => acc) rest := rfl
    rw [hstep, ih]
    cases hu : urlOk pr with
    | some u =>
      simp only [List.filterMap_cons, hu]
      rw [setAdd_toFinset]
      ext a
      simp only [Finset.mem_union, Finset.mem_insert, List.mem_toFinset, List.mem_cons]
      tauto
    | none =>
      simp only [List.filterMap_cons, hu]

theorem addPRNodes_nodup (nodes : List (Option String)) (acc : List String)
    (h : acc.Nodup) : (addPRNodes acc nodes).Nodup := by
  induction nodes generalizing acc with
  | nil => exact h
  | cons pr rest ih =>
    have hstep : addPRNodes acc (pr :: rest)
        = addPRNodes (match urlOk pr with
            | some u => setAdd acc u
            | none => acc) rest := rfl
    rw [hstep]
    cases hu : urlOk pr with
    | some u => exact ih _ (setAdd_nodup acc u h)
    | none => exact ih _ h

theorem foldCommitNodes_toFinset (cns : List (Option (List (Option String))))
    (acc : List String) :
    (cns.foldl (fun acc cn => addPRNodes acc (cn.getD [])) acc).toFinset
      = acc.toFinset ∪ (cns.flatMap commitNodeUrls).toFinset := by
  induction cns generalizing acc with
  | nil => simp
  | cons cn rest ih =>
    rw [List.foldl_cons, ih, addPRNodes_toFinset]
    ext a
    simp only [Finset.mem_union, List.mem_toFinset, List.flatMap_cons, List.mem_append]
    show (a ∈ acc ∨ a ∈ (cn.getD []).filterMap urlOk) ∨ a ∈ rest.flatMap commitNodeUrls ↔
      a ∈ acc ∨ a ∈ (cn.getD []).filterMap urlOk ∨ a ∈ rest.flatMap commitNodeUrls
    tauto

theorem foldCommitNodes_nodup (cns : List (Option (List (Option String))))
    (acc : List String) (h : acc.Nodup) :
    (cns.foldl (fun acc cn => addPRNodes acc (cn.getD [])) acc).Nodup := by
  induction cns generalizing acc with
  | nil => exact h
  | cons cn rest ih =>
    rw [List.foldl_cons]
    exact ih _ (addPRNodes_nodup _ _ h)

theorem pagePRs_toFinset (h : HistoryPage) (acc : List String) :
    (pagePRs acc h).toFinset
      = acc.toFinset ∪ ((h.nodes.getD []).flatMap commitNodeUrls).toFinset :=
  foldCommitNodes_toFinset _ acc

theorem pagePRs_nodup (h : HistoryPage) (acc : List String) (hn : acc.Nodup) :
    (pagePRs acc h).Nodup :=
  foldCommitNodes_nodup _ acc hn

/-- Well-formed pagination: the successive responses of the full-history
query represent the commit ancestry `anc` when each page carries at most
`pageSize` commit nodes, pages other than the last report a next page, the
last reports none, and the consumed pages' nodes concatenate to `anc`. -/
inductive WFHistory : List (Option HistoryPage) → List (Option (List (Option String))) → Prop
  | last (h : HistoryPage) (rest : List (Option HistoryPage)) :
      pageHasNext h = false → (h.nodes.getD []).length ≤ pageSize →
      WFHistory (some h :: rest) (h.nodes.getD [])
  | more (h : HistoryPage) (rest : List (Option HistoryPage))
      (anc : List (Option (List (Option String)))) :
      pageHasNext h = true → (h.nodes.getD []).length = pageSize →
      WFHistory rest anc →
      WFHistory (some h :: rest) (h.nodes.getD [] ++ anc)

theorem fetchFullHistoryPRs_toFinset (pages : List (Option HistoryPage))
    (anc : List (Option (List (Option String)))) (acc : List String)
    (hwf : WFHistory pages anc) :
    (fetchFullHistoryPRs pages acc).toFinset
      = acc.toFinset ∪ (anc.flatMap commitNodeUrls).toFinset := by
  induction hwf generalizing acc with
  | last h rest hnext hlen =>
    show (if pageHasNext h then fetchFullHistoryPRs rest (pagePRs acc h)
      else pagePRs acc h).toFinset = _
    rw [hnext]
    simp only [Bool.false_eq_true, if_false]
    exact pagePRs_toFinset h acc
  | more h rest anc hnext hlen hrec ih =>
    show (if pageHasNext h then fetchFullHistoryPRs rest (pagePRs acc h)
      else pagePRs acc h).toFinset = _
    rw [hnext]
    simp only [if_true]
    rw [ih, pagePRs_toFinset, List.flatMap_append]
    ext a
    simp only [Finset.mem_union, List.mem_toFinset, List.mem_append]
    tauto

theorem fetchFullHistoryPRs_nodup : ∀ (pages : List (Option HistoryPage))
    (acc : List String), acc.Nodup → (fetchFullHistoryPRs pages acc).Nodup
  | [], _, h => h
  | none :: _, _, h => h
  | some hp :: rest, acc, h => by
    show (if pageHasNext hp then fetchFullHistoryPRs rest (pagePRs acc hp)
      else pagePRs acc hp).Nodup
    by_cases hn : pageHasNext hp
    · rw [if_pos hn]
      exact fetchFullHistoryPRs_nodup rest _ (pagePRs_nodup hp acc h)
    · rw [if_neg hn]
      exact pagePRs_nodup hp acc h

theorem extractPrUrlsFromCommits_toFinset (env : GithubEnv) (commits : List String) :
    (extractPrUrlsFromCommits env commits).toFinset
      = (commits.flatMap fun sha => commitNodeUrls (env.commitPRs sha)).toFinset := by
  have hgen : ∀ (cs : List String) (acc : List String),
      (cs.foldl (fun acc sha => addPRNodes acc ((env.commitPRs sha).getD [])) acc).toFinset
        = acc.toFinset ∪ (cs.flatMap fun sha => commitNodeUrls (env.commitPRs sha)).toFinset := by
    intro cs
    induction cs with
    | nil => intro acc; simp
    | cons sha rest ih =>
      intro acc
      rw [List.foldl_cons, ih, addPRNodes_toFinset]
      ext a
      simp only [Finset.mem_union, List.mem_toFinset, List.flatMap_cons, List.mem_append]
      show (a ∈ acc ∨ a ∈ ((env.commitPRs sha).getD []).filterMap urlOk) ∨
          (a ∈ rest.flatMap fun s => commitNodeUrls (env.commitPRs s)) ↔
        a ∈ acc ∨ a ∈ ((env.commitPRs sha).getD []).filterMap urlOk ∨
          (a ∈ rest.flatMap fun s => commitNodeUrls (env.commitPRs s))
      tauto
  have := hgen commits []
  unfold extractPrUrlsFromCommits
  rw [this]
  simp

theorem mem_extractPrUrlsFromCommits (env : GithubEnv) (commits : List String)
    (u : String) :
    u ∈ extractPrUrlsFromCommits env commits ↔
      ∃ sha ∈ commits, u ∈ commitNodeUrls (env.commitPRs sha) := by
  rw [← List.mem_toFinset, extractPrUrlsFromCommits_toFinset, List.mem_toFinset,
    List.mem_flatMap]

theorem extractPrUrlsFromCommits_nodup (env : GithubEnv) (commits : List String) :
    (extractPrUrlsFromCommits env commits).Nodup := by
  have hgen : ∀ (cs : List String) (acc : List String), acc.Nodup →
      (cs.foldl (fun acc sha => addPRNodes acc ((env.commitPRs sha).getD [])) acc).Nodup := by
    intro cs
    induction cs with
    | nil => intro acc h; exact h
    | cons sha rest ih =>
      intro acc h
      rw [List.foldl_cons]
      exact ih _ (addPRNodes_nodup _ _ h)
  exact hgen commits [] List.nodup_nil

/-! ## The orchestrator's branches (C2, C3, C4, C7) -/

/-- C2: when the current release resolves but no previous comparable release
exists, the diff-based `getPullRequestUrlsForRelease` falls back to the full
history walk, whose result set is exactly the union of the PR URLs of every
commit of the ancestry the well-formed pagination represents — pages of at
most `pageSize = 100` commits, consumed until one reports no next page. -/
theorem full_history_fallback_union (env : GithubEnv) (versionName : String)
    (cur : ReleaseData) (anc : List (Option (List (Option String))))
    (hcur : env.getReleaseByTag versionName = .ok cur)
    (hnone : findPreviousComparable env.releases cur.created_at versionName
      cur.target_commitish = none)
    (hwf : WFHistory env.historyPages anc) :
    pageSize = 100 ∧
    getPullRequestUrlsForReleaseDiff env versionName =
      .ok (fetchFullHistoryPRs env.historyPages []) ∧
    (fetchFullHistoryPRs env.historyPages []).toFinset =
      (anc.flatMap commitNodeUrls).toFinset := by
  refine ⟨rfl, ?_, ?_⟩
  · unfold getPullRequestUrlsForReleaseDiff
    rw [hcur]
    have hred : (match Except.ok (ε := GhError) cur with
        | .error e => Except.error (ε := GhError) e
        | .ok currentRelease =>
          match findPreviousComparable env.releases currentRelease.created_at
              versionName currentRelease.target_commitish with
          | none => Except.ok (fetchFullHistoryPRs env.historyPages [])
          | some previous =>
            Except.ok (extractPrUrlsFromCommits env
              (env.compareCommits previous.tag_name versionName)))
        = (match findPreviousComparable env.releases cur.created_at
              versionName cur.target_commitish with
          | none => Except.ok (ε := GhError) (fetchFullHistoryPRs env.historyPages [])
          | some previous =>
            Except.ok (extractPrUrlsFromCommits env
              (env.compareCommits previous.tag_name versionName))) := rfl
    rw [hred, hnone]
  · rw [fetchFullHistoryPRs_toFinset env.historyPages anc [] hwf]
    simp

/-- C3: with a previous comparable release, every URL of the result comes
from a commit of the comparison range between the previous tag and the
current tag; hence no URL associated only with commits reachable from the
previous tag — a set disjoint from the range — can appear. -/
theorem bounded_diff_excludes_previous_only_prs (env : GithubEnv)
    (versionName : String) (cur prev : ReleaseData) (urls : List String)
    (hcur : env.getReleaseByTag versionName = .ok cur)
    (hprev : findPreviousComparable env.releases cur.created_at versionName
      cur.target_commitish = some prev)
    (hres : getPullRequestUrlsForReleaseDiff env versionName = .ok urls) :
    (∀ u ∈ urls, ∃ sha ∈ env.compareCommits prev.tag_name versionName,
        u ∈ commitNodeUrls (env.commitPRs sha)) ∧
    ∀ (reachPrevOnly : String → Bool),
      (∀ sha ∈ env.compareCommits prev.tag_name versionName,
        reachPrevOnly sha = false) →
      ∀ u, (∀ sha, u ∈ commitNodeUrls (env.commitPRs sha) →
        reachPrevOnly sha = true) → u ∉ urls := by
  unfold getPullRequestUrlsForReleaseDiff at hres
  rw [hcur] at hres
  have hres' : (match findPreviousComparable env.releases cur.created_at
        versionName cur.target_commitish with
      | none => Except.ok (ε := GhError) (fetchFullHistoryPRs env.historyPages [])
      | some previous =>
        Except.ok (extractPrUrlsFromCommits env
          (env.compareCommits previous.tag_name versionName))) = .ok urls := hres
  rw [hprev] at hres'
  have hres'' : Except.ok (ε := GhError) (extractPrUrlsFromCommits env
      (env.compareCommits prev.tag_name versionName)) = .ok urls := hres'
  injection hres'' with hres''
  subst hres''
  constructor
  · intro u hu
    exact (mem_extractPrUrlsFromCommits env _ u).mp hu
  · intro reachPrevOnly hdisj u hassoc hu
    rcases (mem_extractPrUrlsFromCommits env _ u).mp hu with ⟨sha, hsha, hmem⟩
    have h1 := hdisj sha hsha
    have h2 := hassoc sha hmem
    rw [h1] at h2
    exact Bool.false_ne_true h2

/-- C7: both `getPullRequestUrlsForRelease` variants — the diff-based one in
either of its branches and the body-text one — return each PR URL at most
once. -/
theorem pr_url_appears_at_most_once (env : GithubEnv) (versionName : String)
    (org repo : Text) :
    (∀ urls, getPullRequestUrlsForReleaseDiff env versionName = .ok urls →
      urls.Nodup) ∧
    (getPullRequestUrlsForReleaseBody env org repo versionName).Nodup := by
  constructor
  · intro urls hres
    unfold getPullRequestUrlsForReleaseDiff at hres
    cases hcur : env.getReleaseByTag versionName with
    | error e =>
      rw [hcur] at hres
      exact absurd hres (by simp)
    | ok cur =>
      rw [hcur] at hres
      have hres' : (match findPreviousComparable env.releases cur.created_at
            versionName cur.target_commitish with
          | none => Except.ok (ε := GhError) (fetchFullHistoryPRs env.historyPages [])
          | some previous =>
            Except.ok (extractPrUrlsFromCommits env
              (env.compareCommits previous.tag_name versionName))) = .ok urls := hres
      cases hp : findPreviousComparable env.releases cur.created_at versionName
          cur.target_commitish with
      | none =>
        rw [hp] at hres'
        have h2 : Except.ok (ε := GhError) (fetchFullHistoryPRs env.historyPages [])
            = .ok urls := hres'
        injection h2 with h2
        subst h2
        exact fetchFullHistoryPRs_nodup env.historyPages [] List.nodup_nil
      | some prev =>
        rw [hp] at hres'
        have h2 : Except.ok (ε := GhError) (extractPrUrlsFromCommits env
            (env.compareCommits prev.tag_name versionName)) = .ok urls := hres'
        injection h2 with h2
        subst h2
        exact extractPrUrlsFromCommits_nodup env _
  · unfold getPullRequestUrlsForReleaseBody
    cases hcur : env.getReleaseByTag versionName with
    | error e => exact List.nodup_nil
    | ok rel => exact dedupKeepFirst_nodup _

/-- A run in which every GitHub call fails: the current release tag cannot
be resolved. -/
def errEnv : GithubEnv where
  getReleaseByTag := fun _ => .error .notFound
  releases := []
  compareCommits := fun _ _ => []
  commitPRs := fun _ => none
  historyPages := []
  generateNotes := fun _ => []

/-- C4, counterexample: the body-text `getPullRequestUrlsForRelease` variant
catches the failed tag resolution and returns the empty list as an ordinary
result, indistinguishable from a legitimately empty PR set. -/
theorem tag_failure_swallowed_by_body_variant :
    errEnv.getReleaseByTag "v1" = .error .notFound ∧
    getPullRequestUrlsForReleaseBody errEnv "acme".toList "widgets".toList "v1"
      = [] :=
  ⟨rfl, rfl⟩

/-- C4, amended: when resolving the current release tag fails, the diff-based
variant propagates the error to the caller, while the body-text variants
(cited by the claim) swallow it and return the empty list as a success. -/
theorem tag_resolution_failure_behaviour (env : GithubEnv)
    (versionName : String) (org repo : Text) (e : GhError)
    (h : env.getReleaseByTag versionName = .error e) :
    getPullRequestUrlsForReleaseDiff env versionName = .error e ∧
    getPullRequestUrlsForReleaseBody env org repo versionName = [] := by
  constructor
  · unfold getPullRequestUrlsForReleaseDiff
    rw [h]
  · unfold getPullRequestUrlsForReleaseBody
    rw [h]

theorem tag_resolution_failure_behaviour_witness :
    getPullRequestUrlsForReleaseDiff errEnv "v1" = .error .notFound ∧
    getPullRequestUrlsForReleaseBody errEnv "acme".toList "widgets".toList "v1"
      = [] :=
  tag_resolution_failure_behaviour errEnv "v1" "acme".toList "widgets".toList
    .notFound rfl

/-- A run with no previous comparable release: one full-history page, two
commits (one with an associated PR, one whose association chain is absent),
no next page. -/
def fullHistoryEnv : GithubEnv where
  getReleaseByTag := fun t =>
    if t = "v2" then .ok ⟨"v2", 5, "main", none⟩ else .error .notFound
  releases := [⟨"v2", 5, "main", none⟩]
  compareCommits := fun _ _ => []
  commitPRs := fun _ => none
  historyPages := [some ⟨some ⟨some false, none⟩,
    some [some [some "https://github.com/acme/widgets/pull/1"], none]⟩]
  generateNotes := fun _ => []

theorem full_history_fallback_union_witness :
    pageSize = 100 ∧
    getPullRequestUrlsForReleaseDiff fullHistoryEnv "v2" =
      .ok (fetchFullHistoryPRs fullHistoryEnv.historyPages []) ∧
    (fetchFullHistoryPRs fullHistoryEnv.historyPages []).toFinset =
      (([some [some "https://github.com/acme/widgets/pull/1"], none]
        : List (Option (List (Option String)))).flatMap commitNodeUrls).toFinset :=
  full_history_fallback_union fullHistoryEnv "v2" ⟨"v2", 5, "main", none⟩
    [some [some "https://github.com/acme/widgets/pull/1"], none]
    rfl (by decide)
    (WFHistory.last ⟨some ⟨some false, none⟩,
      some [some [some "https://github.com/acme/widgets/pull/1"], none]⟩ []
      (by decide) (by decide))

/-- A run with a previous comparable release `v1`: the comparison range
`v1..v2` holds the single commit `c2`, associated with PR 2. -/
def boundedDiffEnv : GithubEnv where
  getReleaseByTag := fun t =>
    if t = "v2" then .ok ⟨"v2", 5, "main", none⟩ else .error .notFound
  releases := [⟨"v1", 3, "main", none⟩, ⟨"v2", 5, "main", none⟩]
  compareCommits := fun b h =>
    if b = "v1" && h = "v2" then ["c2"] else []
  commitPRs := fun sha =>
    if sha = "c2" then some [some "https://github.com/acme/widgets/pull/2"]
    else none
  historyPages := []
  generateNotes := fun _ => []

theorem bounded_diff_excludes_previous_only_prs_witness :
    (∀ u ∈ ["https://github.com/acme/widgets/pull/2"],
      ∃ sha ∈ boundedDiffEnv.compareCommits "v1" "v2",
        u ∈ commitNodeUrls (boundedDiffEnv.commitPRs sha)) ∧
    ∀ (reachPrevOnly : String → Bool),
      (∀ sha ∈ boundedDiffEnv.compareCommits "v1" "v2",
        reachPrevOnly sha = false) →
      ∀ u, (∀ sha, u ∈ commitNodeUrls (boundedDiffEnv.commitPRs sha) →
        reachPrevOnly sha = true) →
      u ∉ ["https://github.com/acme/widgets/pull/2"] :=
  bounded_diff_excludes_previous_only_prs boundedDiffEnv "v2"
    ⟨"v2", 5, "main", none⟩ ⟨"v1", 3, "main", none⟩
    ["https://github.com/acme/widgets/pull/2"] rfl (by decide) rfl

/-! ## The Linear attach side: prefix gating, the per-issue loop, labels
(C8, C9, C10)

`ENABLED_LINEAR_PREFIXES` is split on `/[\s,]+/`: the tokens are the maximal
runs of characters that are neither a comma nor whitespace (the leading and
trailing empty fragments of the JavaScript split are removed by
`filter(Boolean)`, and `trim` is the identity on such tokens, which contain
no whitespace). -/

def isSepChar (c : Char) : Bool := c = ',' || c.isWhitespace

def splitTokensFuel : Nat → Text → List Text
  | _, [] => []
  | 0, _ :: _ => []
  | n + 1, c :: rest =>
    if isSepChar c then splitTokensFuel n rest
    else (c :: rest.takeWhile fun d => !isSepChar d) ::
      splitTokensFuel n (rest.dropWhile fun d => !isSepChar d)

def splitTokens (s : Text) : List Text := splitTokensFuel s.length s

/-- `s.toUpperCase().endsWith('-') ? s.toUpperCase() : s.toUpperCase() + '-'`. -/
def normalizeTok (tok : Text) : Text :=
  if (tok.map Char.toUpper).reverse.head? = some '-' then tok.map Char.toUpper
  else tok.map Char.toUpper ++ ['-']

/-- The module-level `enabledPrefixes` of `attach_release.ts`. -/
def enabledPrefixes (cfg : Text) : List Text :=
  ((splitTokens cfg).filter fun tok => !tok.isEmpty).map normalizeTok

/-- `isIdentifierEnabled`: `none` and the empty identifier are falsy. -/
def isIdentifierEnabled (cfg : Text) (identifier : Option Text) : Bool :=
  match identifier with
  | none => false
  | some id =>
    if id.isEmpty then false
    else if (enabledPrefixes cfg).isEmpty then true
    else (enabledPrefixes cfg).any fun p => p.isPrefixOf (id.map Char.toUpper)

structure LParent where
  id : String
deriving DecidableEq

structure LLabel where
  id : String
  parent : Option LParent
deriving DecidableEq

structure LIssue where
  id : String
  identifier : Text
  labels : List LLabel
deriving DecidableEq

/-- The collaborators of `processRelease` in `attach_release.ts`, abstracted:
`getIssue` is `getLinearIssueFromPrUrl`, `linkOk`/`labelOk` the boolean
outcomes of `createLinearAttachment`/`addLabelToIssue` (both catch their own
errors and return false), `releaseLabel` the result of `ensureReleaseLabel`
(null on failure or when the mode does not include labels). -/
structure AttachEnv where
  getIssue : String → Option LIssue
  linkOk : String → Bool
  labelOk : String → Bool
  cfgPrefixes : Text
  doLink : Bool
  doLabel : Bool
  releaseLabel : Option LLabel

/-- The `releaseLabel?.id` truthiness guard. -/
def labelIdTruthy : Option LLabel → Bool
  | some lbl => !lbl.id.isEmpty
  | none => false

/-- `anySuccess` at the end of one loop iteration: the link attachment
succeeded (when linking) or the label update succeeded (when labelling and
the release label resolved). -/
def issueSucceeds (env : AttachEnv) (issue : LIssue) : Bool :=
  (env.doLink && env.linkOk issue.id) ||
  (env.doLabel && labelIdTruthy env.releaseLabel && env.labelOk issue.id)

/-- One iteration of the `for (const prUrl of prUrls)` loop: resolve the
linked issue, skip seen issues and disabled prefixes, record the issue when
any update succeeded. -/
def processStep (env : AttachEnv) (updated : List String) (prUrl : String) :
    List String :=
  match env.getIssue prUrl with
  | none => updated
  | some issue =>
    if issue.id ∈ updated then updated
    else if !(isIdentifierEnabled env.cfgPrefixes (some issue.identifier)) then
      updated
    else if issueSucceeds env issue then setAdd updated issue.id
    else updated

/-- The sequential loop of `processRelease` over the discovered PR URLs,
accumulating `updatedIssues`. -/
def processRelease (env : AttachEnv) (prUrls : List String) : List String :=
  prUrls.foldl (processStep env) []

/-- The count reported by the run's final summary message. -/
def summaryCount (env : AttachEnv) (prUrls : List String) : Nat :=
  (processRelease env prUrls).length

/-- The PR URL `url` contributes issue id `i`: it links to an enabled issue
with that id for which at least one update succeeded. -/
def urlYields (env : AttachEnv) (url : String) (i : String) : Prop :=
  ∃ issue, env.getIssue url = some issue ∧ issue.id = i ∧
    isIdentifierEnabled env.cfgPrefixes (some issue.identifier) = true ∧
    issueSucceeds env issue = true

/-- `l?.parent?.id || null`: a missing parent or an empty parent id is null. -/
def parentIdOrNull : Option LParent → Option String
  | some p => if p.id = "" then none else some p.id
  | none => none

/-- What `addLabelToIssue` does to the issue: return a boolean without any
mutation, or submit an `issueUpdate` with the given label-id list. -/
inductive LabelAction
  | noop (result : Bool)
  | update (newIds : List String)
deriving DecidableEq

/-- `addLabelToIssue` of `label_attach.util.ts` (lines 187–260), as the
action it performs: missing label id fails, an already-present label is a
success without mutation, otherwise the submitted label ids are the current
ones — minus the release label's parent group when it has one — plus the
release label. -/
def addLabelToIssueAction (linearIssue : LIssue) (releaseLabel : LLabel) :
    LabelAction :=
  let current := linearIssue.labels
  let currentIds := current.map LLabel.id
  let labelId := releaseLabel.id
  if labelId = "" then .noop false
  else if labelId ∈ currentIds then .noop true
  else
    match parentIdOrNull releaseLabel.parent with
    | none => .update (currentIds ++ [labelId])
    | some targetParentId =>
      .update (((current.filter fun l =>
          decide (parentIdOrNull l.parent ≠ some targetParentId)).map LLabel.id)
        ++ [labelId])

theorem mem_setAdd (l : List String) (x a : String) :
    a ∈ setAdd l x ↔ a ∈ l ∨ a = x := by
  unfold setAdd
  by_cases h : x ∈ l
  · rw [if_pos h]
    constructor
    · exact Or.inl
    · rintro (ha | rfl)
      · exact ha
      · exact h
  · rw [if_neg h]
    simp

theorem mem_processStep (env : AttachEnv) (acc : List String) (u i : String) :
    i ∈ processStep env acc u ↔ i ∈ acc ∨ urlYields env u i := by
  unfold processStep
  cases hg : env.getIssue u with
  | none =>
    constructor
    · exact Or.inl
    · rintro (h | ⟨issue, hg', _⟩)
      · exact h
      · rw [hg] at hg'; cases hg'
  | some issue =>
    show i ∈ (if issue.id ∈ acc then acc
      else if (!isIdentifierEnabled env.cfgPrefixes (some issue.identifier)) = true then acc
      else if issueSucceeds env issue = true then setAdd acc issue.id else acc) ↔
      i ∈ acc ∨ urlYields env u i
    by_cases hmem : issue.id ∈ acc
    · rw [if_pos hmem]
      constructor
      · exact Or.inl
      · rintro (h | ⟨issue', hg', hi, _, _⟩)
        · exact h
        · rw [hg] at hg'
          injection hg' with hg'
          subst hg'
          exact hi ▸ hmem
    · rw [if_neg hmem]
      by_cases he : isIdentifierEnabled env.cfgPrefixes (some issue.identifier) = true
      · rw [he]
        show i ∈ (if issueSucceeds env issue then setAdd acc issue.id else acc) ↔ _
        by_cases hs : issueSucceeds env issue = true
        · rw [if_pos hs, mem_setAdd]
          constructor
          · rintro (h | rfl)
            · exact Or.inl h
            · exact Or.inr ⟨issue, hg, rfl, he, hs⟩
          · rintro (h | ⟨issue', hg', hi, _, hs'⟩)
            · exact Or.inl h
            · rw [hg] at hg'
              injection hg' with hg'
              subst hg'
              exact Or.inr hi.symm
        · rw [if_neg hs]
          constructor
          · exact Or.inl
          · rintro (h | ⟨issue', hg', hi, _, hs'⟩)
            · exact h
            · rw [hg] at hg'
              injection hg' with hg'
              subst hg'
              exact absurd hs' hs
      · rw [Bool.not_eq_true] at he
        rw [he]
        show i ∈ acc ↔ _
        constructor
        · exact Or.inl
        · rintro (h | ⟨issue', hg', hi, he', _⟩)
          · exact h
          · rw [hg] at hg'
            injection hg' with hg'
            subst hg'
            rw [he] at he'
            exact absurd he' Bool.false_ne_true

theorem mem_foldl_processStep (env : AttachEnv) (urls : List String) :
    ∀ (acc : List String) (i : String),
    i ∈ urls.foldl (processStep env) acc ↔
      i ∈ acc ∨ ∃ url ∈ urls, urlYields env url i := by
  induction urls with
  | nil => intro acc i; simp
  | cons u urls ih =>
    intro acc i
    rw [List.foldl_cons, ih, mem_processStep]
    simp only [List.mem_cons]
    constructor
    · rintro ((h | h) | ⟨url, hurl, hy⟩)
      · exact Or.inl h
      · exact Or.inr ⟨u, Or.inl rfl, h⟩
      · exact Or.inr ⟨url, Or.inr hurl, hy⟩
    · rintro (h | ⟨url, (rfl | hurl), hy⟩)
      · exact Or.inl (Or.inl h)
      · exact Or.inl (Or.inr hy)
      · exact Or.inr ⟨url, hurl, hy⟩

theorem processStep_nodup (env : AttachEnv) (acc : List String) (u : String)
    (h : acc.Nodup) : (processStep env acc u).Nodup := by
  unfold processStep
  cases env.getIssue u with
  | none => exact h
  | some issue =>
    show (if issue.id ∈ acc then acc
      else if (!isIdentifierEnabled env.cfgPrefixes (some issue.identifier)) = true then acc
      else if issueSucceeds env issue = true then setAdd acc issue.id else acc).Nodup
    by_cases hmem : issue.id ∈ acc
    · rw [if_pos hmem]; exact h
    · rw [if_neg hmem]
      by_cases he : (!(isIdentifierEnabled env.cfgPrefixes (some issue.identifier))) = true
      · rw [if_pos he]; exact h
      · rw [if_neg he]
        by_cases hs : issueSucceeds env issue = true
        · rw [if_pos hs]; exact setAdd_nodup acc issue.id h
        · rw [if_neg hs]; exact h

theorem foldl_processStep_nodup (env : AttachEnv) (urls : List String) :
    ∀ (acc : List String), acc.Nodup → (urls.foldl (processStep env) acc).Nodup := by
  induction urls with
  | nil => intro acc h; exact h
  | cons u urls ih =>
    intro acc h
    rw [List.foldl_cons]
    exact ih _ (processStep_nodup env acc u h)

theorem processStep_eq_of_fail (env : AttachEnv) (acc : List String) (u : String)
    (hfail : ∀ issue, env.getIssue u = some issue → issueSucceeds env issue = false) :
    processStep env acc u = acc := by
  unfold processStep
  cases hg : env.getIssue u with
  | none => rfl
  | some issue =>
    show (if issue.id ∈ acc then acc
      else if (!isIdentifierEnabled env.cfgPrefixes (some issue.identifier)) = true then acc
      else if issueSucceeds env issue = true then setAdd acc issue.id else acc) = acc
    have hs := hfail issue hg
    by_cases hmem : issue.id ∈ acc
    · rw [if_pos hmem]
    · rw [if_neg hmem]
      by_cases he : (!(isIdentifierEnabled env.cfgPrefixes (some issue.identifier))) = true
      · rw [if_pos he]
      · rw [if_neg he, hs]
        show (if False then setAdd acc issue.id else acc) = acc
        rw [if_neg (fun hf => hf)]

/-- C8: the per-issue loop of `processRelease` is isolated per issue — the
result set holds exactly the issue ids some discovered PR URL links to with
an enabled prefix and at least one successful update; a URL whose issue
fails every update contributes nothing and removing it leaves the run
unchanged; and the final summary counts exactly those distinct successfully
updated issues. -/
theorem processRelease_isolates_failures (env : AttachEnv) (prUrls : List String) :
    (∀ i, i ∈ processRelease env prUrls ↔ ∃ url ∈ prUrls, urlYields env url i) ∧
    (∀ pre u post, prUrls = pre ++ u :: post →
      (∀ issue, env.getIssue u = some issue → issueSucceeds env issue = false) →
      processRelease env prUrls = processRelease env (pre ++ post)) ∧
    (processRelease env prUrls).Nodup ∧
    summaryCount env prUrls = (processRelease env prUrls).toFinset.card := by
  have hnd : (processRelease env prUrls).Nodup :=
    foldl_processStep_nodup env prUrls [] List.nodup_nil
  refine ⟨?_, ?_, hnd, ?_⟩
  · intro i
    unfold processRelease
    rw [mem_foldl_processStep]
    simp
  · intro pre u post hsplit hfail
    subst hsplit
    unfold processRelease
    rw [List.foldl_append, List.foldl_cons, List.foldl_append,
      processStep_eq_of_fail env _ u hfail]
  · unfold summaryCount
    rw [List.toFinset_card_of_nodup hnd]

theorem splitTokensFuel_tok_ne_nil (n : Nat) :
    ∀ (s : Text), ∀ tok ∈ splitTokensFuel n s, tok ≠ [] := by
  induction n with
  | zero =>
    intro s tok h
    cases s with
    | nil => cases h
    | cons c r => cases h
  | succ n ih =>
    intro s tok h
    cases s with
    | nil => cases h
    | cons c r =>
      by_cases hc : isSepChar c = true
      · have h' : tok ∈ splitTokensFuel n r := by
          simpa [splitTokensFuel, hc] using h
        exact ih r tok h'
      · have h' : tok ∈ (c :: r.takeWhile fun d => !isSepChar d) ::
            splitTokensFuel n (r.dropWhile fun d => !isSepChar d) := by
          simpa [splitTokensFuel, hc] using h
        rcases List.mem_cons.mp h' with h'' | h''
        · subst h''; simp
        · exact ih _ tok h''

theorem splitTokens_tok_ne_nil (s : Text) (tok : Text) (h : tok ∈ splitTokens s) :
    tok ≠ [] :=
  splitTokensFuel_tok_ne_nil s.length s tok h

/-- C9: the identifier gate — a missing or empty identifier is never
enabled; with no configured prefixes everything non-empty is enabled;
otherwise an identifier is enabled exactly when its uppercased form starts
with the normalization of some configured token, normalization uppercasing
the token and ensuring one trailing hyphen; and `processRelease` leaves its
state untouched for a PR whose issue has a disabled identifier. -/
theorem isIdentifierEnabled_gates_issues (cfg id : Text) (env : AttachEnv)
    (updated : List String) (url : String) (issue : LIssue) :
    isIdentifierEnabled cfg none = false ∧
    isIdentifierEnabled cfg (some []) = false ∧
    (enabledPrefixes cfg = [] → id ≠ [] → isIdentifierEnabled cfg (some id) = true) ∧
    (enabledPrefixes cfg ≠ [] →
      (isIdentifierEnabled cfg (some id) = true ↔
        id ≠ [] ∧ ∃ tok ∈ splitTokens cfg, normalizeTok tok <+: id.map Char.toUpper)) ∧
    (∀ tok, (normalizeTok tok).reverse.head? = some '-' ∧
      tok.map Char.toUpper <+: normalizeTok tok ∧
      (normalizeTok tok = tok.map Char.toUpper ∨
        normalizeTok tok = tok.map Char.toUpper ++ ['-'])) ∧
    (env.getIssue url = some issue →
      isIdentifierEnabled env.cfgPrefixes (some issue.identifier) = false →
      processStep env updated url = updated) := by
  refine ⟨rfl, rfl, ?_, ?_, ?_, ?_⟩
  · intro h hne
    simp [isIdentifierEnabled, List.isEmpty_iff, hne, h]
  · intro h
    by_cases hid : id = []
    · subst hid
      simp [isIdentifierEnabled]
    · have hempty : id.isEmpty = false := by
        simp [List.isEmpty_iff, hid]
      have hpe : (enabledPrefixes cfg).isEmpty = false := by
        simp [List.isEmpty_iff, h]
      have hlhs : isIdentifierEnabled cfg (some id)
          = (enabledPrefixes cfg).any fun p => p.isPrefixOf (id.map Char.toUpper) := by
        simp only [isIdentifierEnabled]
        rw [hempty, hpe]
        rfl
      rw [hlhs]
      constructor
      · intro hany
        refine ⟨hid, ?_⟩
        rw [List.any_eq_true] at hany
        rcases hany with ⟨p, hp, hpre⟩
        rcases List.mem_map.mp hp with ⟨tok, htok, rfl⟩
        have htok' := (List.mem_filter.mp htok).1
        exact ⟨tok, htok', List.isPrefixOf_iff_prefix.mp hpre⟩
      · rintro ⟨-, tok, htok, hpre⟩
        rw [List.any_eq_true]
        refine ⟨normalizeTok tok,
          List.mem_map.mpr ⟨tok, List.mem_filter.mpr ⟨htok, ?_⟩, rfl⟩,
          List.isPrefixOf_iff_prefix.mpr hpre⟩
        have hne := splitTokens_tok_ne_nil cfg tok htok
        simp [List.isEmpty_iff, hne]
  · intro tok
    unfold normalizeTok
    by_cases hu : (tok.map Char.toUpper).reverse.head? = some '-'
    · rw [if_pos hu]
      exact ⟨hu, List.prefix_refl _, Or.inl rfl⟩
    · rw [if_neg hu]
      refine ⟨?_, List.prefix_append _ _, Or.inr rfl⟩
      simp
  · intro hget hdis
    unfold processStep
    rw [hget]
    show (if issue.id ∈ updated then updated
      else if (!isIdentifierEnabled env.cfgPrefixes (some issue.identifier)) = true
        then updated
      else if issueSucceeds env issue = true then setAdd updated issue.id
        else updated) = updated
    by_cases hmem : issue.id ∈ updated
    · rw [if_pos hmem]
    · rw [if_neg hmem, hdis]
      rfl

/-- C10: `addLabelToIssue` is idempotent and group-exclusive — an issue that
already carries the release label gets a success without any mutation, and
otherwise the submitted label-id list carries the release label exactly once
and, when the release label sits in a parent group, no other label of the
issue that belongs to that same group. -/
theorem addLabelToIssue_idempotent_group_exclusive (issue : LIssue)
    (releaseLabel : LLabel) (hid : releaseLabel.id ≠ "")
    (hnodup : (issue.labels.map LLabel.id).Nodup) :
    (releaseLabel.id ∈ issue.labels.map LLabel.id →
      addLabelToIssueAction issue releaseLabel = .noop true) ∧
    (releaseLabel.id ∉ issue.labels.map LLabel.id →
      ∃ newIds, addLabelToIssueAction issue releaseLabel = .update newIds ∧
        releaseLabel.id ∈ newIds ∧ newIds.count releaseLabel.id = 1 ∧
        ∀ g, parentIdOrNull releaseLabel.parent = some g →
          ∀ l ∈ issue.labels, parentIdOrNull l.parent = some g →
            l.id ∉ newIds) := by
  constructor
  · intro hmem
    unfold addLabelToIssueAction
    rw [if_neg hid, if_pos hmem]
  · intro hmem
    unfold addLabelToIssueAction
    rw [if_neg hid, if_neg hmem]
    cases hp : parentIdOrNull releaseLabel.parent with
    | none =>
      refine ⟨issue.labels.map LLabel.id ++ [releaseLabel.id], rfl, ?_, ?_, ?_⟩
      · exact List.mem_append_right _ (List.mem_singleton_self _)
      · rw [List.count_append, List.count_eq_zero_of_not_mem hmem]
        simp
      · intro g hg
        cases hg
    | some target =>
      refine ⟨((issue.labels.filter fun l =>
          decide (parentIdOrNull l.parent ≠ some target)).map LLabel.id)
        ++ [releaseLabel.id], rfl, ?_, ?_, ?_⟩
      · exact List.mem_append_right _ (List.mem_singleton_self _)
      · have hnot : releaseLabel.id ∉ (issue.labels.filter fun l =>
            decide (parentIdOrNull l.parent ≠ some target)).map LLabel.id := by
          intro hcon
          rcases List.mem_map.mp hcon with ⟨l, hl, hlid⟩
          exact hmem (List.mem_map.mpr ⟨l, List.mem_of_mem_filter hl, hlid⟩)
        rw [List.count_append, List.count_eq_zero_of_not_mem hnot]
        simp
      · intro g hg l hl hlp hcon
        injection hg with hg
        subst hg
        rcases List.mem_append.mp hcon with hcon | hcon
        · rcases List.mem_map.mp hcon with ⟨l', hl', hlid⟩
          have hfl := List.mem_filter.mp hl'
          have hleq : l' = l :=
            List.inj_on_of_nodup_map hnodup hfl.1 hl hlid
          subst hleq
          have := of_decide_eq_true hfl.2
          exact this hlp
        · rw [List.mem_singleton] at hcon
          apply hmem
          rw [← hcon]
          exact List.mem_map.mpr ⟨l, hl, rfl⟩

/-- A concrete issue carrying one label of the release group and one
ungrouped label. -/
def wIssue : LIssue :=
  ⟨"iss1", "ENG-1".toList, [⟨"old", some ⟨"grp"⟩⟩, ⟨"keep", none⟩]⟩

/-- The release label to apply, a member of group `grp`. -/
def wLabel : LLabel := ⟨"new", some ⟨"grp"⟩⟩

theorem addLabelToIssue_idempotent_group_exclusive_witness :
    (wLabel.id ∈ wIssue.labels.map LLabel.id →
      addLabelToIssueAction wIssue wLabel = .noop true) ∧
    (wLabel.id ∉ wIssue.labels.map LLabel.id →
      ∃ newIds, addLabelToIssueAction wIssue wLabel = .update newIds ∧
        wLabel.id ∈ newIds ∧ newIds.count wLabel.id = 1 ∧
        ∀ g, parentIdOrNull wLabel.parent = some g →
          ∀ l ∈ wIssue.labels, parentIdOrNull l.parent = some g →
            l.id ∉ newIds) :=
  addLabelToIssue_idempotent_group_exclusive wIssue wLabel (by decide) (by decide)

end ReleaseLinker
